import Mathlib

/-!
Verification of two source files of the synapse repository:

* `synapse/_scripts/debug_state_res.py` — the auth-chain traversal
  `dump_auth_chains`, which computes for every event reachable through
  auth-event edges a bitmask saying which starting events can reach it,
  records the discovered edges, and then renders each seen event with a
  colour chosen by indexing a fixed 4-element colour list with the event's
  bitmask.

* `synapse/replication/tcp/streams/partial_state.py` — the
  `UnPartialStatedRoomStream` replication stream: its row type (a frozen,
  slotted attrs record with the single field `room_id`), its fixed stream
  name, and the multi-writer current-token contract.

The Python code is embedded shallowly: the event store is a function from
event ids to optional events, the `defaultdict(int)` bitmask map `seen` is
an insertion-ordered association list with lookup defaulting to `0`, the
`edges` set is a `Finset`, and the unbounded `while stack:` loop takes a
fuel parameter that counts loop iterations (each recursive call consumes
exactly one unit of fuel, so fuel bounds are work bounds).
-/

namespace DebugStateRes

/-- Event identifiers are opaque strings. -/
abbrev EventID := String

/-- The slice of `EventBase` that `dump_auth_chains` consults: the ordered
list of auth event ids returned by `event.auth_event_ids()`. -/
structure Event where
  auth_event_ids : List EventID
deriving DecidableEq

/-- The event store lookup `get_event(eid, allow_none=True)`: `none` models a
missing event (the allow-missing lookup returning nothing). -/
abbrev EventStore := EventID → Option Event

/-- Auth-event list of an event id, empty when the event is absent from the
store.  Used only in specifications and invariants; the traversal itself
consults the store exactly as the source does. -/
def authOf (store : EventStore) (e : EventID) : List EventID :=
  match store e with
  | some ev => ev.auth_event_ids
  | none => []

/-- Python's `seen` is a `defaultdict(int)` from event id to bitmask; we model
it as an insertion-ordered association list.  `seenGet` is `seen.get(k, 0)`. -/
def seenGet (m : List (EventID × Nat)) (k : EventID) : Nat :=
  match m.find? (fun p => p.1 == k) with
  | some p => p.2
  | none => 0

/-- The update `seen[eid] |= bitmask` on a `defaultdict(int)`: an existing
entry is updated in place (dict order preserved), a missing key is appended
with value `0 ||| bitmask = bitmask`. -/
def orMask (m : List (EventID × Nat)) (k : EventID) (bm : Nat) : List (EventID × Nat) :=
  if m.any (fun p => p.1 == k) then
    m.map (fun p => if p.1 == k then (p.1, p.2 ||| bm) else p)
  else m ++ [(k, bm)]

/-- The mutable state shared by all starts of `dump_auth_chains`: the `seen`
bitmask map and the global `edges` set. -/
structure ChainState where
  seen : List (EventID × Nat)
  edges : Finset (EventID × EventID)
deriving DecidableEq

/-- Initial state: `seen = defaultdict(int)`, `edges = set()`. -/
def initState : ChainState := { seen := [], edges := ∅ }

/-- A DFS stack entry `[event, auth event index]` of the source. -/
abbrev Frame := EventID × Nat

/-- Result of one iteration of the `while stack:` loop body. -/
inductive IterResult where
  | more (stack : List Frame) (st : ChainState)
  | done (st : ChainState)
  | missing (eid : EventID)
deriving DecidableEq

/-- One iteration of the `while stack:` loop of `dump_auth_chains`, for a
fixed `bitmask`.  Mirrors the source line by line: inspect the top frame,
fetch the event (`assert event is not None` becomes the `missing` result),
mark-and-pop when the auth index is exhausted, otherwise record the edge and
either advance past an already-seen auth event or push it as a new frame. -/
def dfsIter (store : EventStore) (bitmask : Nat) :
    List Frame → ChainState → IterResult
  | [], st => .done st
  | (eid, pindex) :: rest, st =>
    match store eid with
    | none => .missing eid
    | some event =>
      if pindex ≥ event.auth_event_ids.length then
        .more rest { st with seen := orMask st.seen eid bitmask }
      else
        let pid := event.auth_event_ids.getD pindex ""
        let st' := { st with edges := insert (eid, pid) st.edges }
        if seenGet st.seen pid &&& bitmask ≠ 0 then
          .more ((eid, pindex + 1) :: rest) st'
        else
          .more ((pid, 0) :: (eid, pindex) :: rest) st'

/-- Result of a whole `while stack:` loop.  `outOfFuel` is an artifact of the
shallow embedding (the source loop is unbounded); the termination theorems
show it does not occur on acyclic inputs once the fuel reaches the stated
linear bound. -/
inductive DfsResult where
  | ok (st : ChainState)
  | missing (eid : EventID)
  | outOfFuel
deriving DecidableEq

/-- The `while stack:` loop.  Fuel counts loop iterations: every continuing
iteration consumes exactly one unit. -/
def dfsLoop (store : EventStore) (bitmask : Nat) :
    Nat → List Frame → ChainState → DfsResult
  | 0, stack, st =>
    match dfsIter store bitmask stack st with
    | .done st' => .ok st'
    | .missing e => .missing e
    | .more _ _ => .outOfFuel
  | fuel + 1, stack, st =>
    match dfsIter store bitmask stack st with
    | .done st' => .ok st'
    | .missing e => .missing e
    | .more stack' st' => dfsLoop store bitmask fuel stack' st'

/-- The `for i, start in enumerate(state_after_parents)` loop: run one DFS per
start event, bit `i` for the i-th start (`bitmask = 1 << i`), threading the
shared `seen`/`edges` state. -/
def authChainsLoop (store : EventStore) :
    List EventID → Nat → Nat → ChainState → DfsResult
  | [], _, _, st => .ok st
  | start :: rest, i, fuel, st =>
    match dfsLoop store (1 <<< i) fuel [(start, 0)] st with
    | .ok st' => authChainsLoop store rest (i + 1) fuel st'
    | r => r

/-- The traversal phase of `dump_auth_chains`: all starts, beginning from the
empty `seen` map and empty `edges` set. -/
def authChainsTraversal (store : EventStore) (starts : List EventID) (fuel : Nat) : DfsResult :=
  authChainsLoop store starts 0 fuel initState

/-- The fixed colour list of the rendering loop. -/
def colors : List String := ["gray", "orangered", "lightskyblue", "mediumorchid1"]

/-- Result of the node-rendering loop (`for eid, bitmask in seen.items()`). -/
inductive RenderResult where
  | ok (nodes : List (EventID × String))
  | missing (eid : EventID)
  | indexErr (idx : Nat)
deriving DecidableEq

/-- The node-rendering loop of `dump_auth_chains`: for each `seen` item,
re-fetch the event (`assert event is not None`), then pick
`colors[bitmask]` — an out-of-range index raises `IndexError`, modelled by
`indexErr`. -/
def renderNodes (store : EventStore) : List (EventID × Nat) → RenderResult
  | [] => .ok []
  | (eid, bm) :: rest =>
    match store eid with
    | none => .missing eid
    | some _ =>
      match colors[bm]? with
      | none => .indexErr bm
      | some c =>
        match renderNodes store rest with
        | .ok ns => .ok ((eid, c) :: ns)
        | r => r

/-- Overall result of `dump_auth_chains` (the edge-rendering loop and the
file writes that follow cannot fail in a way the claims mention, so the
output is the final traversal state plus the rendered node list). -/
inductive DumpResult where
  | ok (st : ChainState) (nodes : List (EventID × String))
  | missing (eid : EventID)
  | indexErr (idx : Nat)
  | outOfFuel
deriving DecidableEq

/-- The whole of `dump_auth_chains`: traversal over all starts, then node
rendering.  The `starts` list is the (insertion-ordered, duplicate-free in
the caller) key list of `state_after_parents`. -/
def dump_auth_chains (store : EventStore) (starts : List EventID) (fuel : Nat) : DumpResult :=
  match authChainsTraversal store starts fuel with
  | .ok st =>
    match renderNodes store st.seen with
    | .ok ns => .ok st ns
    | .missing e => .missing e
    | .indexErr i => .indexErr i
  | .missing e => .missing e
  | .outOfFuel => .outOfFuel

/-- Reachability along auth-event edges: `AuthReach store s e` holds when `e`
is reachable from `s` via zero or more steps from an event to one of its auth
events (the specification-side notion the traversal is claimed to compute). -/
inductive AuthReach (store : EventStore) (s : EventID) : EventID → Prop where
  | refl : AuthReach store s s
  | step {e a : EventID} {ev : Event} : AuthReach store s e → store e = some ev →
      a ∈ ev.auth_event_ids → AuthReach store s a

/-- Projection: did the loop return successfully? -/
def DfsResult.isOk : DfsResult → Bool
  | .ok _ => true
  | _ => false

/-- Projection: the final `seen` map of a successful loop (junk otherwise). -/
def DfsResult.seenOf : DfsResult → List (EventID × Nat)
  | .ok st => st.seen
  | _ => []

/-- Projection: the final `edges` set of a successful loop (junk otherwise). -/
def DfsResult.edgesOf : DfsResult → Finset (EventID × EventID)
  | .ok st => st.edges
  | _ => ∅

/-- Total per-run cost of the auth graph restricted to the closed universe
`U`: two units per event (push and pop) plus one unit per auth edge (index
advance).  One DFS run performs at most this many loop iterations. -/
def totalWork (store : EventStore) (U : Finset EventID) : Nat :=
  Finset.sum U (fun e => 2 + (authOf store e).length)

/-- Bitmask test and bit test agree: `x &&& 2 ^ i` is nonzero exactly when bit
`i` of `x` is set. -/
lemma and_two_pow_ne_zero_iff (x i : Nat) :
    x &&& 2 ^ i ≠ 0 ↔ x.testBit i = true := by
  constructor
  · intro h
    by_contra hb
    apply h
    apply Nat.eq_of_testBit_eq
    intro j
    rw [Nat.testBit_and, Nat.zero_testBit]
    rcases eq_or_ne i j with rfl | hij
    · simp only [Bool.not_eq_true] at hb
      simp [hb]
    · simp [Nat.testBit_two_pow_of_ne hij]
  · intro h h0
    have hj : ((x &&& 2 ^ i).testBit i) = false := by
      rw [h0]; exact Nat.zero_testBit i
    rw [Nat.testBit_and, h, Nat.testBit_two_pow_self] at hj
    simp at hj

/-- Setting a mask makes the mask test succeed. -/
lemma or_and_self (x b : Nat) : (x ||| b) &&& b = b := by
  apply Nat.eq_of_testBit_eq
  intro j
  rw [Nat.testBit_and, Nat.testBit_or]
  cases b.testBit j <;> simp

/-- A successful mask test survives setting further bits. -/
lemma and_ne_zero_of_or {x b : Nat} (c : Nat) (h : x &&& b ≠ 0) :
    (x ||| c) &&& b ≠ 0 := by
  intro h0
  apply h
  apply Nat.eq_of_testBit_eq
  intro j
  rw [Nat.testBit_and, Nat.zero_testBit]
  have hj : ((x ||| c) &&& b).testBit j = false := by
    rw [h0]; exact Nat.zero_testBit j
  rw [Nat.testBit_and, Nat.testBit_or] at hj
  revert hj
  cases x.testBit j <;> cases c.testBit j <;> cases b.testBit j <;> decide

/-- An or-combination with a nonzero right operand is nonzero. -/
lemma or_ne_zero_of_right (a : Nat) {b : Nat} (hb : b ≠ 0) : a ||| b ≠ 0 := by
  intro h0
  apply hb
  apply Nat.eq_of_testBit_eq
  intro j
  rw [Nat.zero_testBit]
  have hj : ((a ||| b).testBit j) = false := by
    rw [h0]; exact Nat.zero_testBit j
  rw [Nat.testBit_or] at hj
  revert hj
  cases a.testBit j <;> cases b.testBit j <;> decide

/-- Bits other than `i` are untouched when bit `i` is set. -/
lemma testBit_or_two_pow_of_ne {i j : Nat} (x : Nat) (h : j ≠ i) :
    (x ||| 2 ^ i).testBit j = x.testBit j := by
  rw [Nat.testBit_or, Nat.testBit_two_pow_of_ne (Ne.symm h), Bool.or_false]

/-- A number all of whose bits at positions `≥ n` are clear is below `2 ^ n`. -/
lemma lt_two_pow_of_high_bits (x n : Nat)
    (h : ∀ j, n ≤ j → x.testBit j = false) : x < 2 ^ n := by
  induction n generalizing x with
  | zero =>
    have hx : x = 0 := Nat.eq_of_testBit_eq fun j => by
      rw [h j (Nat.zero_le j), Nat.zero_testBit]
    simp [hx]
  | succ n ih =>
    have hx2 : x / 2 < 2 ^ n := by
      apply ih
      intro j hj
      rw [← Nat.testBit_succ]
      exact h (j + 1) (Nat.succ_le_succ hj)
    have hx0 : x % 2 < 2 := Nat.mod_lt x (by decide)
    have hdm := Nat.div_add_mod x 2
    have hp : 2 ^ (n + 1) = 2 * 2 ^ n := by ring
    omega

/-- A number with bit `i` set is at least `2 ^ i`. -/
lemma two_pow_le_of_testBit {x i : Nat} (h : x.testBit i = true) : 2 ^ i ≤ x := by
  by_contra hlt
  rw [Nat.testBit_lt_two_pow (Nat.lt_of_not_le hlt)] at h
  cases h

/-- The auxiliary update function of `orMask` preserves keys. -/
lemma orMask_fst (k : EventID) (bm : Nat) (p : EventID × Nat) :
    ((if p.1 == k then (p.1, p.2 ||| bm) else p) : EventID × Nat).1 = p.1 := by
  by_cases h : p.1 == k <;> simp [h]

/-- Lookup after `seen[eid] |= bitmask`: the updated key gains the mask, all
other keys are unchanged. -/
lemma seenGet_orMask (m : List (EventID × Nat)) (k x : EventID) (bm : Nat) :
    seenGet (orMask m k bm) x = if x = k then seenGet m k ||| bm else seenGet m x := by
  by_cases hany : m.any (fun p => p.1 == k) = true
  · unfold orMask
    rw [if_pos hany]
    have hpred : ((fun p : EventID × Nat => p.1 == x) ∘
        (fun p : EventID × Nat => if p.1 == k then (p.1, p.2 ||| bm) else p)) =
        fun p : EventID × Nat => p.1 == x := by
      funext p
      simp only [Function.comp_apply]
      rw [orMask_fst k bm p]
    unfold seenGet
    rw [List.find?_map, hpred]
    rcases hf : m.find? (fun p : EventID × Nat => p.1 == x) with _ | q
    · by_cases hxk : x = k
      · exfalso
        subst hxk
        rcases List.any_eq_true.mp hany with ⟨p, hp, hpk⟩
        exact (List.find?_eq_none.mp hf p hp) hpk
      · rw [if_neg hxk]
        rfl
    · have hqx : q.1 = x := by
        have h1 := List.find?_some hf
        simpa using h1
      by_cases hxk : x = k
      · subst hxk
        have hqk : (q.1 == x) = true := by simp [hqx]
        simp [hqk, hqx, hf]
      · have hqk : (q.1 == k) = false := beq_eq_false_iff_ne.mpr (by rw [hqx]; exact hxk)
        simp only [hqk, hxk]
        simp [hqx, hxk, hf]
  · unfold orMask
    rw [if_neg hany]
    unfold seenGet
    rw [List.find?_append]
    have hmk : m.find? (fun p : EventID × Nat => p.1 == k) = none := by
      apply List.find?_eq_none.mpr
      intro p hp hpk
      exact hany (List.any_eq_true.mpr ⟨p, hp, hpk⟩)
    by_cases hxk : x = k
    · subst hxk
      rw [hmk]
      simp [List.find?]
    · rw [if_neg hxk]
      have hsingle : List.find? (fun p : EventID × Nat => p.1 == x) [(k, bm)] = none := by
        have : (k == x) = false := beq_eq_false_iff_ne.mpr (fun h => hxk h.symm)
        simp [List.find?, this]
      rw [hsingle]
      rcases m.find? (fun p : EventID × Nat => p.1 == x) with _ | q <;> rfl

/-- Keys after `seen[eid] |= bitmask`. -/
lemma keys_orMask (m : List (EventID × Nat)) (k x : EventID) (bm : Nat) :
    x ∈ (orMask m k bm).map Prod.fst ↔ x ∈ m.map Prod.fst ∨ x = k := by
  by_cases hany : m.any (fun p => p.1 == k) = true
  · unfold orMask
    rw [if_pos hany, List.map_map]
    have hfst : (Prod.fst ∘ fun p : EventID × Nat =>
        if p.1 == k then (p.1, p.2 ||| bm) else p) = Prod.fst := by
      funext p
      exact orMask_fst k bm p
    rw [hfst]
    constructor
    · exact Or.inl
    · rintro (h | rfl)
      · exact h
      · rcases List.any_eq_true.mp hany with ⟨p, hp, hpk⟩
        have : p.1 = x := by simpa using hpk
        exact this ▸ List.mem_map.mpr ⟨p, hp, rfl⟩
  · unfold orMask
    rw [if_neg hany]
    simp

/-- Distinct keys are preserved by `seen[eid] |= bitmask`. -/
lemma keysNodup_orMask (m : List (EventID × Nat)) (k : EventID) (bm : Nat)
    (h : (m.map Prod.fst).Nodup) : ((orMask m k bm).map Prod.fst).Nodup := by
  by_cases hany : m.any (fun p => p.1 == k) = true
  · unfold orMask
    rw [if_pos hany, List.map_map]
    have hfst : (Prod.fst ∘ fun p : EventID × Nat =>
        if p.1 == k then (p.1, p.2 ||| bm) else p) = Prod.fst := by
      funext p
      exact orMask_fst k bm p
    rw [hfst]
    exact h
  · unfold orMask
    rw [if_neg hany, List.map_append]
    simp only [List.map_cons, List.map_nil]
    rw [List.nodup_append]
    refine ⟨h, List.nodup_singleton k, ?_⟩
    intro x hx hk
    simp only [List.mem_singleton] at hk
    subst hk
    rcases List.mem_map.mp hx with ⟨p, hp, hpx⟩
    have hpk : (p.1 == x) = true := by simp [hpx]
    exact hany (List.any_eq_true.mpr ⟨p, hp, hpk⟩)

/-- Entry values stay nonzero across `seen[eid] |= bitmask` with a nonzero
mask. -/
lemma orMask_values_ne_zero (m : List (EventID × Nat)) (k : EventID) {bm : Nat}
    (h : ∀ p ∈ m, p.2 ≠ 0) (hbm : bm ≠ 0) :
    ∀ p ∈ orMask m k bm, p.2 ≠ 0 := by
  by_cases hany : m.any (fun p => p.1 == k) = true
  · unfold orMask
    rw [if_pos hany]
    intro p hp
    rcases List.mem_map.mp hp with ⟨q, hq, hqp⟩
    by_cases hqk : q.1 == k
    · rw [if_pos hqk] at hqp
      rw [← hqp]
      exact or_ne_zero_of_right q.2 hbm
    · rw [if_neg hqk] at hqp
      rw [← hqp]
      exact h q hq
  · unfold orMask
    rw [if_neg hany]
    intro p hp
    rcases List.mem_append.mp hp with hp | hp
    · exact h p hp
    · simp only [List.mem_singleton] at hp
      rw [hp]
      exact hbm

/-- Under distinct keys, lookup returns the value of a member entry. -/
lemma seenGet_of_mem_nodup (m : List (EventID × Nat))
    (h : (m.map Prod.fst).Nodup) {p : EventID × Nat} (hp : p ∈ m) :
    seenGet m p.1 = p.2 := by
  induction m with
  | nil => cases hp
  | cons q rest ih =>
    rcases List.mem_cons.mp hp with rfl | hp'
    · unfold seenGet
      simp [List.find?]
    · have hq : q.1 ≠ p.1 := by
        intro hqp
        rw [List.map_cons, List.nodup_cons] at h
        exact h.1 (hqp ▸ List.mem_map.mpr ⟨p, hp', rfl⟩)
      unfold seenGet
      simp only [List.find?]
      have : (q.1 == p.1) = false := by
        simp
        exact hq
      rw [this]
      have h' : (rest.map Prod.fst).Nodup := by
        rw [List.map_cons, List.nodup_cons] at h
        exact h.2
      exact ih h' hp'

/-- Nonzero lookups come from recorded keys. -/
lemma mem_keys_of_seenGet_ne_zero (m : List (EventID × Nat)) (x : EventID)
    (h : seenGet m x ≠ 0) : x ∈ m.map Prod.fst := by
  by_contra hx
  apply h
  unfold seenGet
  have hf : m.find? (fun p : EventID × Nat => p.1 == x) = none := by
    apply List.find?_eq_none.mpr
    intro p hp hpk
    have : p.1 = x := by simpa using hpk
    exact hx (this ▸ List.mem_map.mpr ⟨p, hp, rfl⟩)
  rw [hf]

/-- A present event's auth list as `authOf` sees it. -/
lemma authOf_eq {store : EventStore} {e : EventID} {ev : Event}
    (h : store e = some ev) : authOf store e = ev.auth_event_ids := by
  unfold authOf
  rw [h]

/-- Iteration on a missing top event reports that event. -/
lemma dfsIter_missing (store : EventStore) (bm : Nat) {eid : EventID} (pindex : Nat)
    (rest : List Frame) (st : ChainState) (h : store eid = none) :
    dfsIter store bm ((eid, pindex) :: rest) st = .missing eid := by
  simp [dfsIter, h]

/-- Iteration with the auth index exhausted: mark the top event and pop. -/
lemma dfsIter_mark (store : EventStore) (bm : Nat) {eid : EventID} {pindex : Nat}
    (rest : List Frame) (st : ChainState) {ev : Event} (h : store eid = some ev)
    (hge : ev.auth_event_ids.length ≤ pindex) :
    dfsIter store bm ((eid, pindex) :: rest) st =
      .more rest { st with seen := orMask st.seen eid bm } := by
  simp [dfsIter, h, hge]

/-- Iteration on an already-seen auth event: record the edge and advance. -/
lemma dfsIter_advance (store : EventStore) (bm : Nat) {eid : EventID} {pindex : Nat}
    (rest : List Frame) (st : ChainState) {ev : Event} (h : store eid = some ev)
    (hlt : pindex < ev.auth_event_ids.length)
    (hseen : seenGet st.seen (ev.auth_event_ids.getD pindex "") &&& bm ≠ 0) :
    dfsIter store bm ((eid, pindex) :: rest) st =
      .more ((eid, pindex + 1) :: rest)
        { st with edges := insert (eid, ev.auth_event_ids.getD pindex "") st.edges } := by
  have hnot : ¬ pindex ≥ ev.auth_event_ids.length := Nat.not_le.mpr hlt
  simp [dfsIter, h, hnot, hseen]
  simpa [List.getD_eq_getElem?_getD] using hseen

/-- Iteration on an unseen auth event: record the edge and push a new frame. -/
lemma dfsIter_push (store : EventStore) (bm : Nat) {eid : EventID} {pindex : Nat}
    (rest : List Frame) (st : ChainState) {ev : Event} (h : store eid = some ev)
    (hlt : pindex < ev.auth_event_ids.length)
    (hz : seenGet st.seen (ev.auth_event_ids.getD pindex "") &&& bm = 0) :
    dfsIter store bm ((eid, pindex) :: rest) st =
      .more ((ev.auth_event_ids.getD pindex "", 0) :: (eid, pindex) :: rest)
        { st with edges := insert (eid, ev.auth_event_ids.getD pindex "") st.edges } := by
  have hnot : ¬ pindex ≥ ev.auth_event_ids.length := Nat.not_le.mpr hlt
  simp [dfsIter, h, hnot, hz]
  simpa [List.getD_eq_getElem?_getD] using hz

/-- The invariant carried through one run of the `while stack:` loop of
`dump_auth_chains` for a single start event: the stack is a rank-decreasing
chain of unmarked events reachable from `start`, every marked event is
reachable with all its auth events marked, `seen` changes only by setting
`bitmask` bits, and the `edges` set grows exactly by the inspected auth
edges of stack or marked events. -/
structure LoopInv (store : EventStore) (U : Finset EventID) (rank : EventID → Nat)
    (bitmask : Nat) (start : EventID) (st0 : ChainState)
    (stack : List Frame) (st : ChainState) : Prop where
  stack_mem : ∀ f ∈ stack, f.1 ∈ U
  stack_reach : ∀ f ∈ stack, AuthReach store start f.1
  stack_unmarked : ∀ f ∈ stack, seenGet st.seen f.1 &&& bitmask = 0
  stack_ranks : List.Pairwise (fun f g : Frame => rank f.1 < rank g.1) stack
  frame_bound : ∀ f ∈ stack, f.2 ≤ (authOf store f.1).length
  frame_seenpre : ∀ f ∈ stack, ∀ m, m < f.2 →
      seenGet st.seen ((authOf store f.1).getD m "") &&& bitmask ≠ 0
  sound : ∀ e, seenGet st.seen e &&& bitmask ≠ 0 → AuthReach store start e
  marked_closed : ∀ e, seenGet st.seen e &&& bitmask ≠ 0 →
      ∀ a ∈ authOf store e, seenGet st.seen a &&& bitmask ≠ 0
  start_pending : seenGet st.seen start &&& bitmask ≠ 0 ∨ start ∈ stack.map Prod.fst
  bits : ∀ e, seenGet st.seen e = seenGet st0.seen e ∨
      seenGet st.seen e = seenGet st0.seen e ||| bitmask
  seen_nodup : (st.seen.map Prod.fst).Nodup
  seen_vals : ∀ p ∈ st.seen, p.2 ≠ 0
  edges_mono : st0.edges ⊆ st.edges
  edges_low1 : ∀ f ∈ stack, ∀ m, m < f.2 →
      (f.1, (authOf store f.1).getD m "") ∈ st.edges
  edges_low2 : ∀ e, seenGet st.seen e &&& bitmask ≠ 0 →
      ∀ p ∈ authOf store e, (e, p) ∈ st.edges
  edges_up : ∀ a b, (a, b) ∈ st.edges → (a, b) ∈ st0.edges ∨
      (b ∈ authOf store a ∧
        (seenGet st.seen a &&& bitmask ≠ 0 ∨ a ∈ stack.map Prod.fst))

/-- The termination measure of the `while stack:` loop: every event of `U`
still unmarked and not on the stack pays for its future push, pop and index
advances; every stack frame pays for its pop and remaining advances.  Each
loop iteration decreases `phi` by exactly one. -/
def phi (store : EventStore) (U : Finset EventID) (bitmask : Nat)
    (stack : List Frame) (seen : List (EventID × Nat)) : Nat :=
  Finset.sum
    (U.filter (fun e => seenGet seen e &&& bitmask = 0 ∧ e ∉ stack.map Prod.fst))
    (fun e => 2 + (authOf store e).length)
  + (stack.map (fun f => 1 + ((authOf store f.1).length - f.2))).sum

/-- Lookups away from the updated key are untouched. -/
lemma seenGet_orMask_ne (m : List (EventID × Nat)) (k x : EventID) (bm : Nat)
    (hxk : x ≠ k) : seenGet (orMask m k bm) x = seenGet m x := by
  rw [seenGet_orMask, if_neg hxk]

/-- Marking one event keeps every marked event marked. -/
lemma marked_mono_orMask (m : List (EventID × Nat)) (k x : EventID) {bm : Nat}
    (h : seenGet m x &&& bm ≠ 0) : seenGet (orMask m k bm) x &&& bm ≠ 0 := by
  have hbm : bm ≠ 0 := fun h0 => h (by rw [h0, Nat.and_zero])
  rw [seenGet_orMask]
  by_cases hxk : x = k
  · rw [if_pos hxk, or_and_self]
    exact hbm
  · rw [if_neg hxk]
    exact h

/-- The updated key is marked afterwards. -/
lemma marked_orMask_self (m : List (EventID × Nat)) (k : EventID) {bm : Nat}
    (hbm : bm ≠ 0) : seenGet (orMask m k bm) k &&& bm ≠ 0 := by
  rw [seenGet_orMask, if_pos rfl, or_and_self]
  exact hbm

/-- An event marked after the update was the updated key or already marked. -/
lemma marked_orMask_cases (m : List (EventID × Nat)) (k x : EventID) {bm : Nat}
    (h : seenGet (orMask m k bm) x &&& bm ≠ 0) :
    x = k ∨ seenGet m x &&& bm ≠ 0 := by
  by_cases hxk : x = k
  · exact Or.inl hxk
  · right
    rwa [seenGet_orMask_ne m k x bm hxk] at h

/-- List membership through `getD` with an in-range index. -/
lemma mem_iff_getD (l : List EventID) (a : EventID) :
    a ∈ l ↔ ∃ m, m < l.length ∧ l.getD m "" = a := by
  constructor
  · intro h
    rcases List.mem_iff_getElem.mp h with ⟨n, hn, hna⟩
    exact ⟨n, hn, by rw [List.getD_eq_getElem l "" hn]; exact hna⟩
  · rintro ⟨m, hm, rfl⟩
    rw [List.getD_eq_getElem l "" hm]
    exact List.getElem_mem hm

section LoopProofs

variable {store : EventStore} {U : Finset EventID} {rank : EventID → Nat}
variable {bitmask : Nat} {start : EventID} {st0 : ChainState}

/-- Mark-and-pop preserves the loop invariant. -/
lemma inv_mark (hbm : bitmask ≠ 0) {eid : EventID} {pindex : Nat}
    {rest : List Frame} {st : ChainState}
    (hInv : LoopInv store U rank bitmask start st0 ((eid, pindex) :: rest) st)
    (hge : (authOf store eid).length ≤ pindex) :
    LoopInv store U rank bitmask start st0 rest
      { st with seen := orMask st.seen eid bitmask } := by
  have hhead : (eid, pindex) ∈ (eid, pindex) :: rest := List.mem_cons_self _ _
  have hrankhd : ∀ f ∈ rest, rank eid < rank f.1 :=
    fun f hf => (List.pairwise_cons.mp hInv.stack_ranks).1 f hf
  have hne : ∀ f ∈ rest, f.1 ≠ eid := by
    intro f hf heq
    have h1 := hrankhd f hf
    rw [heq] at h1
    exact Nat.lt_irrefl _ h1
  have hmm : ∀ x, seenGet st.seen x &&& bitmask ≠ 0 →
      seenGet (orMask st.seen eid bitmask) x &&& bitmask ≠ 0 :=
    fun x => marked_mono_orMask st.seen eid x
  have hback : ∀ x, seenGet (orMask st.seen eid bitmask) x &&& bitmask ≠ 0 →
      x = eid ∨ seenGet st.seen x &&& bitmask ≠ 0 :=
    fun x => marked_orMask_cases st.seen eid x
  have hauth_marked : ∀ a ∈ authOf store eid, seenGet st.seen a &&& bitmask ≠ 0 := by
    intro a ha
    rcases (mem_iff_getD _ a).mp ha with ⟨m, hm, rfl⟩
    exact hInv.frame_seenpre (eid, pindex) hhead m (Nat.lt_of_lt_of_le hm hge)
  refine ⟨?_, ?_, ?_, ?_, ?_, ?_, ?_, ?_, ?_, ?_, ?_, ?_, ?_, ?_, ?_, ?_⟩
  · exact fun f hf => hInv.stack_mem f (List.mem_cons_of_mem _ hf)
  · exact fun f hf => hInv.stack_reach f (List.mem_cons_of_mem _ hf)
  · intro f hf
    show seenGet (orMask st.seen eid bitmask) f.1 &&& bitmask = 0
    rw [seenGet_orMask_ne st.seen eid f.1 bitmask (hne f hf)]
    exact hInv.stack_unmarked f (List.mem_cons_of_mem _ hf)
  · exact hInv.stack_ranks.of_cons
  · exact fun f hf => hInv.frame_bound f (List.mem_cons_of_mem _ hf)
  · intro f hf m hm
    exact hmm _ (hInv.frame_seenpre f (List.mem_cons_of_mem _ hf) m hm)
  · intro e he
    rcases hback e he with rfl | he'
    · exact hInv.stack_reach _ hhead
    · exact hInv.sound e he'
  · intro e he a ha
    rcases hback e he with rfl | he'
    · exact hmm a (hauth_marked a ha)
    · exact hmm a (hInv.marked_closed e he' a ha)
  · rcases hInv.start_pending with hs | hs
    · exact Or.inl (hmm start hs)
    · rw [List.map_cons] at hs
      rcases List.mem_cons.mp hs with heq | hs'
      · left
        show seenGet (orMask st.seen eid bitmask) start &&& bitmask ≠ 0
        rw [heq]
        exact marked_orMask_self st.seen eid hbm
      · exact Or.inr hs'
  · intro e
    by_cases hek : e = eid
    · subst hek
      show seenGet (orMask st.seen e bitmask) e = _ ∨ seenGet (orMask st.seen e bitmask) e = _
      rw [seenGet_orMask, if_pos rfl]
      rcases hInv.bits e with h | h
      · rw [h]
        exact Or.inr rfl
      · rw [h, Nat.or_assoc, Nat.or_self]
        exact Or.inr rfl
    · show seenGet (orMask st.seen eid bitmask) e = _ ∨ seenGet (orMask st.seen eid bitmask) e = _
      rw [seenGet_orMask_ne st.seen eid e bitmask hek]
      exact hInv.bits e
  · exact keysNodup_orMask st.seen eid bitmask hInv.seen_nodup
  · exact orMask_values_ne_zero st.seen eid hInv.seen_vals hbm
  · exact hInv.edges_mono
  · exact fun f hf m hm => hInv.edges_low1 f (List.mem_cons_of_mem _ hf) m hm
  · intro e he p hp
    rcases hback e he with rfl | he'
    · rcases (mem_iff_getD _ p).mp hp with ⟨m, hm, rfl⟩
      exact hInv.edges_low1 _ hhead m (Nat.lt_of_lt_of_le hm hge)
    · exact hInv.edges_low2 e he' p hp
  · intro a b hab
    rcases hInv.edges_up a b hab with h | ⟨hb, hmk | hstk⟩
    · exact Or.inl h
    · exact Or.inr ⟨hb, Or.inl (hmm a hmk)⟩
    · rw [List.map_cons] at hstk
      rcases List.mem_cons.mp hstk with heq | hstk'
      · refine Or.inr ⟨hb, Or.inl ?_⟩
        show seenGet (orMask st.seen eid bitmask) a &&& bitmask ≠ 0
        rw [heq]
        exact marked_orMask_self st.seen eid hbm
      · exact Or.inr ⟨hb, Or.inr hstk'⟩

/-- Mark-and-pop decreases the measure by exactly one. -/
lemma phi_mark (hbm : bitmask ≠ 0) {eid : EventID} {pindex : Nat}
    {rest : List Frame} {seen : List (EventID × Nat)}
    (hge : (authOf store eid).length ≤ pindex) :
    phi store U bitmask rest (orMask seen eid bitmask) + 1 =
    phi store U bitmask ((eid, pindex) :: rest) seen := by
  unfold phi
  have hfil : U.filter (fun e => seenGet (orMask seen eid bitmask) e &&& bitmask = 0 ∧
      e ∉ rest.map Prod.fst) =
      U.filter (fun e => seenGet seen e &&& bitmask = 0 ∧
      e ∉ ((eid, pindex) :: rest).map Prod.fst) := by
    ext x
    simp only [Finset.mem_filter, List.map_cons, List.mem_cons, not_or]
    constructor
    · rintro ⟨hxU, hm', hstk⟩
      by_cases hxe : x = eid
      · exact absurd (hxe ▸ hm') (marked_orMask_self seen eid hbm)
      · rw [seenGet_orMask_ne seen eid x bitmask hxe] at hm'
        exact ⟨hxU, hm', hxe, hstk⟩
    · rintro ⟨hxU, hm, hxe, hstk⟩
      refine ⟨hxU, ?_, hstk⟩
      rw [seenGet_orMask_ne seen eid x bitmask hxe]
      exact hm
  rw [hfil]
  simp only [List.map_cons, List.sum_cons]
  have h0 : (authOf store eid).length - pindex = 0 := Nat.sub_eq_zero_of_le hge
  rw [h0]
  omega

/-- Advancing past an already-seen auth event preserves the loop invariant. -/
lemma inv_advance {eid : EventID} {pindex : Nat} {rest : List Frame} {st : ChainState}
    (hInv : LoopInv store U rank bitmask start st0 ((eid, pindex) :: rest) st)
    (hlt : pindex < (authOf store eid).length)
    (hmk : seenGet st.seen ((authOf store eid).getD pindex "") &&& bitmask ≠ 0) :
    LoopInv store U rank bitmask start st0 ((eid, pindex + 1) :: rest)
      { st with edges := insert (eid, (authOf store eid).getD pindex "") st.edges } := by
  have hhead : (eid, pindex) ∈ (eid, pindex) :: rest := List.mem_cons_self _ _
  refine ⟨?_, ?_, ?_, ?_, ?_, ?_, ?_, ?_, ?_, ?_, ?_, ?_, ?_, ?_, ?_, ?_⟩
  · intro f hf
    rcases List.mem_cons.mp hf with rfl | hf'
    · exact hInv.stack_mem (eid, pindex) hhead
    · exact hInv.stack_mem f (List.mem_cons_of_mem _ hf')
  · intro f hf
    rcases List.mem_cons.mp hf with rfl | hf'
    · exact hInv.stack_reach (eid, pindex) hhead
    · exact hInv.stack_reach f (List.mem_cons_of_mem _ hf')
  · intro f hf
    rcases List.mem_cons.mp hf with rfl | hf'
    · exact hInv.stack_unmarked (eid, pindex) hhead
    · exact hInv.stack_unmarked f (List.mem_cons_of_mem _ hf')
  · have h1 := List.pairwise_cons.mp hInv.stack_ranks
    exact List.pairwise_cons.mpr ⟨fun g hg => h1.1 g hg, h1.2⟩
  · intro f hf
    rcases List.mem_cons.mp hf with rfl | hf'
    · exact hlt
    · exact hInv.frame_bound f (List.mem_cons_of_mem _ hf')
  · intro f hf m hm
    rcases List.mem_cons.mp hf with rfl | hf'
    · rcases Nat.lt_succ_iff_lt_or_eq.mp hm with hm' | hm'
      · exact hInv.frame_seenpre _ hhead m hm'
      · rw [hm']
        exact hmk
    · exact hInv.frame_seenpre f (List.mem_cons_of_mem _ hf') m hm
  · exact hInv.sound
  · exact hInv.marked_closed
  · rcases hInv.start_pending with hs | hs
    · exact Or.inl hs
    · right
      rw [List.map_cons] at hs ⊢
      exact hs
  · exact hInv.bits
  · exact hInv.seen_nodup
  · exact hInv.seen_vals
  · exact hInv.edges_mono.trans (Finset.subset_insert _ _)
  · intro f hf m hm
    rcases List.mem_cons.mp hf with rfl | hf'
    · rcases Nat.lt_succ_iff_lt_or_eq.mp hm with hm' | hm'
      · exact Finset.mem_insert_of_mem (hInv.edges_low1 _ hhead m hm')
      · rw [hm']
        exact Finset.mem_insert_self _ _
    · exact Finset.mem_insert_of_mem (hInv.edges_low1 f (List.mem_cons_of_mem _ hf') m hm)
  · intro e he p hp
    exact Finset.mem_insert_of_mem (hInv.edges_low2 e he p hp)
  · intro a b hab
    rcases Finset.mem_insert.mp hab with hab' | hab'
    · have ha : a = eid := congrArg Prod.fst hab'
      have hb : b = (authOf store eid).getD pindex "" := congrArg Prod.snd hab'
      subst ha
      refine Or.inr ⟨?_, Or.inr ?_⟩
      · rw [hb]
        exact (mem_iff_getD _ _).mpr ⟨pindex, hlt, rfl⟩
      · rw [List.map_cons]
        exact List.mem_cons_self _ _
    · rcases hInv.edges_up a b hab' with h | ⟨hbmem, hcase⟩
      · exact Or.inl h
      · refine Or.inr ⟨hbmem, ?_⟩
        rcases hcase with h | h
        · exact Or.inl h
        · right
          rw [List.map_cons] at h ⊢
          exact h

/-- Advancing decreases the measure by exactly one. -/
lemma phi_advance {eid : EventID} {pindex : Nat} {rest : List Frame}
    {seen : List (EventID × Nat)}
    (hlt : pindex < (authOf store eid).length) :
    phi store U bitmask ((eid, pindex + 1) :: rest) seen + 1 =
    phi store U bitmask ((eid, pindex) :: rest) seen := by
  unfold phi
  have hfil : U.filter (fun e => seenGet seen e &&& bitmask = 0 ∧
      e ∉ ((eid, pindex + 1) :: rest).map Prod.fst) =
      U.filter (fun e => seenGet seen e &&& bitmask = 0 ∧
      e ∉ ((eid, pindex) :: rest).map Prod.fst) := by
    ext x
    simp only [Finset.mem_filter, List.map_cons, List.mem_cons]
  rw [hfil]
  simp only [List.map_cons, List.sum_cons]
  omega

/-- Pushing an unseen auth event preserves the loop invariant. -/
lemma inv_push (hclosed : ∀ e ∈ U, ∀ a ∈ authOf store e, a ∈ U)
    (hrank : ∀ e ∈ U, ∀ a ∈ authOf store e, rank a < rank e)
    {eid : EventID} {pindex : Nat} {rest : List Frame} {st : ChainState} {ev : Event}
    (hInv : LoopInv store U rank bitmask start st0 ((eid, pindex) :: rest) st)
    (hev : store eid = some ev)
    (hlt : pindex < (authOf store eid).length)
    (hz : seenGet st.seen ((authOf store eid).getD pindex "") &&& bitmask = 0) :
    LoopInv store U rank bitmask start st0
      (((authOf store eid).getD pindex "", 0) :: (eid, pindex) :: rest)
      { st with edges := insert (eid, (authOf store eid).getD pindex "") st.edges } := by
  have hhead : (eid, pindex) ∈ (eid, pindex) :: rest := List.mem_cons_self _ _
  have heidU : eid ∈ U := hInv.stack_mem _ hhead
  have hpidmem : (authOf store eid).getD pindex "" ∈ authOf store eid :=
    (mem_iff_getD _ _).mpr ⟨pindex, hlt, rfl⟩
  have hpidU : (authOf store eid).getD pindex "" ∈ U := hclosed eid heidU _ hpidmem
  have hrankpid : rank ((authOf store eid).getD pindex "") < rank eid :=
    hrank eid heidU _ hpidmem
  have hreach : AuthReach store start ((authOf store eid).getD pindex "") := by
    refine AuthReach.step (hInv.stack_reach _ hhead) hev ?_
    rw [← authOf_eq hev]
    exact hpidmem
  refine ⟨?_, ?_, ?_, ?_, ?_, ?_, ?_, ?_, ?_, ?_, ?_, ?_, ?_, ?_, ?_, ?_⟩
  · intro f hf
    rcases List.mem_cons.mp hf with rfl | hf'
    · exact hpidU
    · exact hInv.stack_mem f hf'
  · intro f hf
    rcases List.mem_cons.mp hf with rfl | hf'
    · exact hreach
    · exact hInv.stack_reach f hf'
  · intro f hf
    rcases List.mem_cons.mp hf with rfl | hf'
    · exact hz
    · exact hInv.stack_unmarked f hf'
  · refine List.pairwise_cons.mpr ⟨?_, hInv.stack_ranks⟩
    intro g hg
    rcases List.mem_cons.mp hg with rfl | hg'
    · exact hrankpid
    · exact Nat.lt_trans hrankpid ((List.pairwise_cons.mp hInv.stack_ranks).1 g hg')
  · intro f hf
    rcases List.mem_cons.mp hf with rfl | hf'
    · exact Nat.zero_le _
    · exact hInv.frame_bound f hf'
  · intro f hf m hm
    rcases List.mem_cons.mp hf with rfl | hf'
    · exact absurd hm (Nat.not_lt_zero m)
    · exact hInv.frame_seenpre f hf' m hm
  · exact hInv.sound
  · exact hInv.marked_closed
  · rcases hInv.start_pending with hs | hs
    · exact Or.inl hs
    · right
      rw [List.map_cons]
      exact List.mem_cons_of_mem _ hs
  · exact hInv.bits
  · exact hInv.seen_nodup
  · exact hInv.seen_vals
  · exact hInv.edges_mono.trans (Finset.subset_insert _ _)
  · intro f hf m hm
    rcases List.mem_cons.mp hf with rfl | hf'
    · exact absurd hm (Nat.not_lt_zero m)
    · exact Finset.mem_insert_of_mem (hInv.edges_low1 f hf' m hm)
  · intro e he p hp
    exact Finset.mem_insert_of_mem (hInv.edges_low2 e he p hp)
  · intro a b hab
    rcases Finset.mem_insert.mp hab with hab' | hab'
    · have ha : a = eid := congrArg Prod.fst hab'
      have hb : b = (authOf store eid).getD pindex "" := congrArg Prod.snd hab'
      subst ha
      refine Or.inr ⟨?_, Or.inr ?_⟩
      · rw [hb]
        exact hpidmem
      · rw [List.map_cons, List.map_cons]
        exact List.mem_cons_of_mem _ (List.mem_cons_self _ _)
    · rcases hInv.edges_up a b hab' with h | ⟨hbmem, hcase⟩
      · exact Or.inl h
      · refine Or.inr ⟨hbmem, ?_⟩
        rcases hcase with h | h
        · exact Or.inl h
        · right
          rw [List.map_cons, List.map_cons]
          rw [List.map_cons] at h
          exact List.mem_cons_of_mem _ h

/-- Pushing decreases the measure by exactly one: the pushed event leaves the
pending sum and enters the stack sum with one unit less. -/
lemma phi_push {eid : EventID} {pindex : Nat} {rest : List Frame}
    {seen : List (EventID × Nat)} {pid : EventID}
    (hpidU : pid ∈ U)
    (hz : seenGet seen pid &&& bitmask = 0)
    (hnotstk : pid ∉ ((eid, pindex) :: rest).map Prod.fst) :
    phi store U bitmask ((pid, 0) :: (eid, pindex) :: rest) seen + 1 =
    phi store U bitmask ((eid, pindex) :: rest) seen := by
  unfold phi
  have hnotstk' : pid ∉ eid :: rest.map Prod.fst := by
    rw [List.map_cons] at hnotstk
    exact hnotstk
  have hmem : pid ∈ U.filter (fun e => seenGet seen e &&& bitmask = 0 ∧
      e ∉ eid :: rest.map Prod.fst) :=
    Finset.mem_filter.mpr ⟨hpidU, hz, hnotstk'⟩
  have hfa : U.filter (fun e => seenGet seen e &&& bitmask = 0 ∧
      e ∉ ((pid, 0) :: (eid, pindex) :: rest).map Prod.fst) =
      (U.filter (fun e => seenGet seen e &&& bitmask = 0 ∧
      e ∉ eid :: rest.map Prod.fst)).erase pid := by
    ext x
    simp only [Finset.mem_erase, Finset.mem_filter, List.map_cons, List.mem_cons, not_or]
    tauto
  have hfb : U.filter (fun e => seenGet seen e &&& bitmask = 0 ∧
      e ∉ ((eid, pindex) :: rest).map Prod.fst) =
      U.filter (fun e => seenGet seen e &&& bitmask = 0 ∧
      e ∉ eid :: rest.map Prod.fst) := by
    ext x
    simp only [Finset.mem_filter, List.map_cons]
  rw [hfa, hfb]
  have hsum := Finset.sum_erase_add
    (U.filter (fun e => seenGet seen e &&& bitmask = 0 ∧
      e ∉ eid :: rest.map Prod.fst))
    (fun e => 2 + (authOf store e).length) hmem
  simp only [] at hsum
  simp only [List.map_cons, List.sum_cons]
  omega

/-- An empty stack ends the loop successfully at any fuel. -/
lemma dfsLoop_done (fuel : Nat) (st : ChainState) :
    dfsLoop store bitmask fuel [] st = .ok st := by
  cases fuel <;> simp [dfsLoop, dfsIter]

/-- A continuing iteration consumes one unit of fuel. -/
lemma dfsLoop_succ_more {fuel : Nat} {stack stack' : List Frame} {st st' : ChainState}
    (h : dfsIter store bitmask stack st = .more stack' st') :
    dfsLoop store bitmask (fuel + 1) stack st = dfsLoop store bitmask fuel stack' st' := by
  simp [dfsLoop, h]

/-- A missing event aborts the loop at any fuel. -/
lemma dfsLoop_missing_eq {fuel : Nat} {stack : List Frame} {st : ChainState}
    {e : EventID} (h : dfsIter store bitmask stack st = .missing e) :
    dfsLoop store bitmask fuel stack st = .missing e := by
  cases fuel <;> simp [dfsLoop, h]

/-- The `while stack:` loop terminates successfully, preserving the loop
invariant to the final (empty-stack) state, whenever the measure fits in the
fuel: the invariant-preservation lemmas make each iteration decrease `phi`
by one. -/
lemma dfsLoop_complete
    (htotal : ∀ e ∈ U, (store e).isSome = true)
    (hclosed : ∀ e ∈ U, ∀ a ∈ authOf store e, a ∈ U)
    (hrank : ∀ e ∈ U, ∀ a ∈ authOf store e, rank a < rank e)
    (hbm : bitmask ≠ 0) :
    ∀ (fuel : Nat) (stack : List Frame) (st : ChainState),
      LoopInv store U rank bitmask start st0 stack st →
      phi store U bitmask stack st.seen ≤ fuel →
      ∃ st', dfsLoop store bitmask fuel stack st = .ok st' ∧
        LoopInv store U rank bitmask start st0 [] st' := by
  intro fuel
  induction fuel with
  | zero =>
    intro stack st hInv hphi
    cases stack with
    | nil => exact ⟨st, dfsLoop_done 0 st, hInv⟩
    | cons f rest =>
      exfalso
      have h1 : 1 ≤ phi store U bitmask (f :: rest) st.seen := by
        unfold phi
        simp only [List.map_cons, List.sum_cons]
        omega
      omega
  | succ fuel ih =>
    intro stack st hInv hphi
    cases stack with
    | nil => exact ⟨st, dfsLoop_done _ st, hInv⟩
    | cons f rest =>
      obtain ⟨eid, pindex⟩ := f
      have heidU : eid ∈ U := hInv.stack_mem _ (List.mem_cons_self _ _)
      have hsome := htotal eid heidU
      rcases hev : store eid with _ | ev
      · rw [hev] at hsome
        simp at hsome
      · have hauth : authOf store eid = ev.auth_event_ids := authOf_eq hev
        by_cases hge : ev.auth_event_ids.length ≤ pindex
        · have hstep := dfsIter_mark store bitmask rest st hev hge
          have hge' : (authOf store eid).length ≤ pindex := by
            rw [hauth]; exact hge
          have hInv' := inv_mark hbm hInv hge'
          have hphi' := @phi_mark store U bitmask hbm eid pindex rest st.seen hge'
          rw [dfsLoop_succ_more hstep]
          apply ih
          · exact hInv'
          · show phi store U bitmask rest (orMask st.seen eid bitmask) ≤ fuel
            omega
        · have hlt : pindex < ev.auth_event_ids.length := Nat.lt_of_not_le hge
          have hlt' : pindex < (authOf store eid).length := by
            rw [hauth]; exact hlt
          by_cases hmk : seenGet st.seen (ev.auth_event_ids.getD pindex "") &&& bitmask ≠ 0
          · have hstep := dfsIter_advance store bitmask rest st hev hlt hmk
            rw [← hauth] at hstep
            have hmk' : seenGet st.seen ((authOf store eid).getD pindex "") &&& bitmask ≠ 0 := by
              rw [hauth]; exact hmk
            have hInv' := inv_advance hInv hlt' hmk'
            have hphi' := @phi_advance store U bitmask eid pindex rest st.seen hlt'
            rw [dfsLoop_succ_more hstep]
            apply ih
            · exact hInv'
            · show phi store U bitmask ((eid, pindex + 1) :: rest) st.seen ≤ fuel
              omega
          · have hz : seenGet st.seen (ev.auth_event_ids.getD pindex "") &&& bitmask = 0 :=
              not_not.mp hmk
            have hstep := dfsIter_push store bitmask rest st hev hlt hz
            rw [← hauth] at hstep
            have hz' : seenGet st.seen ((authOf store eid).getD pindex "") &&& bitmask = 0 := by
              rw [hauth]; exact hz
            have hpidmem : (authOf store eid).getD pindex "" ∈ authOf store eid :=
              (mem_iff_getD _ _).mpr ⟨pindex, hlt', rfl⟩
            have hpidU : (authOf store eid).getD pindex "" ∈ U :=
              hclosed eid heidU _ hpidmem
            have hrankpid : rank ((authOf store eid).getD pindex "") < rank eid :=
              hrank eid heidU _ hpidmem
            have hnot : (authOf store eid).getD pindex "" ∉
                ((eid, pindex) :: rest).map Prod.fst := by
              intro hmem
              rw [List.map_cons] at hmem
              rcases List.mem_cons.mp hmem with heq | hmem'
              · rw [heq] at hrankpid
                exact Nat.lt_irrefl _ hrankpid
              · rcases List.mem_map.mp hmem' with ⟨g, hg, hgeq⟩
                have hlt2 := (List.pairwise_cons.mp hInv.stack_ranks).1 g hg
                rw [hgeq] at hlt2
                exact Nat.lt_irrefl _ (Nat.lt_trans hrankpid hlt2)
            have hInv' := inv_push hclosed hrank hInv hev hlt' hz'
            have hphi' := @phi_push store U bitmask eid pindex rest st.seen
              ((authOf store eid).getD pindex "") hpidU hz' hnot
            rw [dfsLoop_succ_more hstep]
            apply ih
            · exact hInv'
            · show phi store U bitmask
                (((authOf store eid).getD pindex "", 0) :: (eid, pindex) :: rest)
                st.seen ≤ fuel
              omega

/-- Reachability stays inside an auth-closed universe. -/
lemma authReach_mem (hclosed : ∀ e ∈ U, ∀ a ∈ authOf store e, a ∈ U)
    {s e : EventID} (hs : s ∈ U) (h : AuthReach store s e) : e ∈ U := by
  induction h with
  | refl => exact hs
  | step _ hst ha ih =>
    refine hclosed _ ih _ ?_
    rw [authOf_eq hst]
    exact ha

/-- One full DFS run for a single start: with a closed, fully fetchable,
acyclic (ranked) universe and fuel at least `totalWork`, the loop returns
successfully; afterwards an event carries the run's bit exactly when it is
reachable from the start, all other bits are untouched, and the edge set has
grown by exactly the auth edges of the reachable events. -/
lemma dfsRun_spec
    (htotal : ∀ e ∈ U, (store e).isSome = true)
    (hclosed : ∀ e ∈ U, ∀ a ∈ authOf store e, a ∈ U)
    (hrank : ∀ e ∈ U, ∀ a ∈ authOf store e, rank a < rank e)
    (hbm : bitmask ≠ 0) (hstart : start ∈ U) (fuel : Nat)
    (hclear : ∀ e, seenGet st0.seen e &&& bitmask = 0)
    (hnodup : (st0.seen.map Prod.fst).Nodup)
    (hvals : ∀ p ∈ st0.seen, p.2 ≠ 0)
    (hfuel : totalWork store U ≤ fuel) :
    ∃ st', dfsLoop store bitmask fuel [(start, 0)] st0 = .ok st' ∧
      (∀ e, seenGet st'.seen e &&& bitmask ≠ 0 ↔ AuthReach store start e) ∧
      (∀ e, seenGet st'.seen e = seenGet st0.seen e ∨
        seenGet st'.seen e = seenGet st0.seen e ||| bitmask) ∧
      (∀ a b, (a, b) ∈ st'.edges ↔ (a, b) ∈ st0.edges ∨
        (AuthReach store start a ∧ b ∈ authOf store a)) ∧
      (st'.seen.map Prod.fst).Nodup ∧ (∀ p ∈ st'.seen, p.2 ≠ 0) := by
  have hInv0 : LoopInv store U rank bitmask start st0 [(start, 0)] st0 := by
    refine ⟨?_, ?_, ?_, ?_, ?_, ?_, ?_, ?_, ?_, ?_, ?_, ?_, ?_, ?_, ?_, ?_⟩
    · intro f hf
      rcases List.mem_cons.mp hf with rfl | hf'
      · exact hstart
      · cases hf'
    · intro f hf
      rcases List.mem_cons.mp hf with rfl | hf'
      · exact AuthReach.refl
      · cases hf'
    · intro f hf
      exact hclear f.1
    · exact List.pairwise_singleton _ _
    · intro f hf
      rcases List.mem_cons.mp hf with rfl | hf'
      · exact Nat.zero_le _
      · cases hf'
    · intro f hf m hm
      rcases List.mem_cons.mp hf with rfl | hf'
      · exact absurd hm (Nat.not_lt_zero m)
      · cases hf'
    · exact fun e he => absurd (hclear e) he
    · exact fun e he => absurd (hclear e) he
    · right
      rw [List.map_cons]
      exact List.mem_cons_self _ _
    · exact fun e => Or.inl rfl
    · exact hnodup
    · exact hvals
    · exact Finset.Subset.refl _
    · intro f hf m hm
      rcases List.mem_cons.mp hf with rfl | hf'
      · exact absurd hm (Nat.not_lt_zero m)
      · cases hf'
    · exact fun e he => absurd (hclear e) he
    · exact fun a b hab => Or.inl hab
  have hphi0 : phi store U bitmask [(start, 0)] st0.seen ≤ fuel := by
    refine Nat.le_trans ?_ hfuel
    refine Nat.le_trans (Nat.add_le_add ?_ ?_) (Nat.le_of_eq
      (Finset.sum_erase_add U (fun e => 2 + (authOf store e).length) hstart))
    · apply Finset.sum_le_sum_of_subset
      intro x hx
      rcases Finset.mem_filter.mp hx with ⟨hxU, _, hstk⟩
      refine Finset.mem_erase.mpr ⟨?_, hxU⟩
      intro hxs
      apply hstk
      rw [List.map_cons, hxs]
      exact List.mem_cons_self _ _
    · show (([(start, 0)] : List Frame).map
        (fun f => 1 + ((authOf store f.1).length - f.2))).sum ≤
        2 + (authOf store start).length
      simp only [List.map_cons, List.map_nil, List.sum_cons, List.sum_nil]
      omega
  obtain ⟨st', heq, hinv⟩ :=
    dfsLoop_complete htotal hclosed hrank hbm fuel [(start, 0)] st0 hInv0 hphi0
  have hstart_marked : seenGet st'.seen start &&& bitmask ≠ 0 := by
    rcases hinv.start_pending with h | h
    · exact h
    · simp at h
  have hiff : ∀ e, seenGet st'.seen e &&& bitmask ≠ 0 ↔ AuthReach store start e := by
    intro e
    constructor
    · exact hinv.sound e
    · intro h
      induction h with
      | refl => exact hstart_marked
      | step _ hst ha ih =>
        refine hinv.marked_closed _ ih _ ?_
        rw [authOf_eq hst]
        exact ha
  refine ⟨st', heq, hiff, hinv.bits, ?_, hinv.seen_nodup, hinv.seen_vals⟩
  intro a b
  constructor
  · intro hab
    rcases hinv.edges_up a b hab with h | ⟨hbmem, hmk | hstk⟩
    · exact Or.inl h
    · exact Or.inr ⟨(hiff a).mp hmk, hbmem⟩
    · simp at hstk
  · rintro (h | ⟨hra, hbmem⟩)
    · exact hinv.edges_mono h
    · exact hinv.edges_low2 a ((hiff a).mpr hra) b hbmem

/-- Shifting one left by `i` is the i-th power of two. -/
lemma one_shiftLeft_eq (i : Nat) : 1 <<< i = 2 ^ i := by
  rw [Nat.shiftLeft_eq, one_mul]

/-- An empty start list leaves the state unchanged. -/
lemma authChainsLoop_nil (i fuel : Nat) (st : ChainState) :
    authChainsLoop store [] i fuel st = .ok st := rfl

/-- A successful per-start run continues the outer loop on the rest. -/
lemma authChainsLoop_cons_ok {s : EventID} {starts' : List EventID} {i fuel : Nat}
    {st st1 : ChainState} (h : dfsLoop store (1 <<< i) fuel [(s, 0)] st = .ok st1) :
    authChainsLoop store (s :: starts') i fuel st =
      authChainsLoop store starts' (i + 1) fuel st1 := by
  simp [authChainsLoop, h]

/-- The outer `for i, start in enumerate(...)` loop: starting from a state
whose bits at positions `≥ i` are all clear, it completes, preserves bits
below `i`, computes bit `i + k` as reachability from the k-th remaining
start, leaves all higher bits clear, and accumulates exactly the auth edges
of events reachable from some processed start. -/
lemma authChainsLoop_spec
    (htotal : ∀ e ∈ U, (store e).isSome = true)
    (hclosed : ∀ e ∈ U, ∀ a ∈ authOf store e, a ∈ U)
    (hrank : ∀ e ∈ U, ∀ a ∈ authOf store e, rank a < rank e) :
    ∀ (starts : List EventID) (i fuel : Nat) (st : ChainState),
    (∀ s ∈ starts, s ∈ U) →
    totalWork store U ≤ fuel →
    (∀ e j, i ≤ j → (seenGet st.seen e).testBit j = false) →
    (st.seen.map Prod.fst).Nodup →
    (∀ p ∈ st.seen, p.2 ≠ 0) →
    ∃ st', authChainsLoop store starts i fuel st = .ok st' ∧
      (∀ e j, j < i → (seenGet st'.seen e).testBit j = (seenGet st.seen e).testBit j) ∧
      (∀ e k s, starts[k]? = some s →
        ((seenGet st'.seen e).testBit (i + k) = true ↔ AuthReach store s e)) ∧
      (∀ e j, i + starts.length ≤ j → (seenGet st'.seen e).testBit j = false) ∧
      (∀ a b, (a, b) ∈ st'.edges ↔ (a, b) ∈ st.edges ∨
        ((∃ (k : Nat) (s : EventID), starts[k]? = some s ∧ AuthReach store s a) ∧ b ∈ authOf store a)) ∧
      (st'.seen.map Prod.fst).Nodup ∧ (∀ p ∈ st'.seen, p.2 ≠ 0) := by
  intro starts
  induction starts with
  | nil =>
    intro i fuel st hst hfuel hhigh hnodup hvals
    refine ⟨st, rfl, fun e j _ => rfl, ?_, ?_, ?_, hnodup, hvals⟩
    · intro e k s hk
      simp at hk
    · intro e j hj
      exact hhigh e j (by omega)
    · intro a b
      constructor
      · exact Or.inl
      · rintro (h | ⟨⟨k, s, hk, _⟩, _⟩)
        · exact h
        · simp at hk
  | cons s starts' ih =>
    intro i fuel st hst hfuel hhigh hnodup hvals
    have hbm2 : (2 : Nat) ^ i ≠ 0 := Nat.pos_iff_ne_zero.mp (Nat.pos_pow_of_pos i (by decide))
    have hclear : ∀ e, seenGet st.seen e &&& 2 ^ i = 0 := by
      intro e
      by_contra h
      have h1 := (and_two_pow_ne_zero_iff _ i).mp h
      rw [hhigh e i (Nat.le_refl i)] at h1
      cases h1
    obtain ⟨st1, heq1, hiff1, hbits1, hedges1, hnodup1, hvals1⟩ :=
      @dfsRun_spec store U rank (2 ^ i) s st htotal hclosed hrank hbm2
        (hst s (List.mem_cons_self _ _)) fuel hclear hnodup hvals hfuel
    have hhigh1 : ∀ e j, i + 1 ≤ j → (seenGet st1.seen e).testBit j = false := by
      intro e j hj
      rcases hbits1 e with h | h
      · rw [h]
        exact hhigh e j (by omega)
      · rw [h, testBit_or_two_pow_of_ne _ (by omega)]
        exact hhigh e j (by omega)
    obtain ⟨st2, heq2, hpres2, hbits2, hhigh2, hedges2, hnodup2, hvals2⟩ :=
      ih (i + 1) fuel st1 (fun x hx => hst x (List.mem_cons_of_mem _ hx)) hfuel
        hhigh1 hnodup1 hvals1
    have heqloop : authChainsLoop store (s :: starts') i fuel st =
        authChainsLoop store starts' (i + 1) fuel st1 := by
      refine authChainsLoop_cons_ok ?_
      rw [one_shiftLeft_eq]
      exact heq1
    refine ⟨st2, by rw [heqloop]; exact heq2, ?_, ?_, ?_, ?_, hnodup2, hvals2⟩
    · intro e j hj
      rw [hpres2 e j (by omega)]
      rcases hbits1 e with h | h
      · rw [h]
      · rw [h, testBit_or_two_pow_of_ne _ (by omega)]
    · intro e k s' hk
      cases k with
      | zero =>
        have hs' : s = s' := by simpa using hk
        subst hs'
        have h1 : (seenGet st2.seen e).testBit (i + 0) = (seenGet st1.seen e).testBit i := by
          rw [Nat.add_zero]
          exact hpres2 e i (by omega)
        rw [h1]
        exact (and_two_pow_ne_zero_iff _ i).symm.trans (hiff1 e)
      | succ k' =>
        have hk' : starts'[k']? = some s' := by simpa using hk
        have hidx : i + (k' + 1) = (i + 1) + k' := by omega
        rw [hidx]
        exact hbits2 e k' s' hk'
    · intro e j hj
      apply hhigh2
      simp only [List.length_cons] at hj
      omega
    · intro a b
      rw [hedges2 a b, hedges1 a b]
      constructor
      · rintro ((h | ⟨hra, hb⟩) | ⟨⟨k, s'', hk, hra⟩, hb⟩)
        · exact Or.inl h
        · exact Or.inr ⟨⟨0, s, by simp, hra⟩, hb⟩
        · exact Or.inr ⟨⟨k + 1, s'', by simpa using hk, hra⟩, hb⟩
      · rintro (h | ⟨⟨k, s'', hk, hra⟩, hb⟩)
        · exact Or.inl (Or.inl h)
        · cases k with
          | zero =>
            have hs2 : s = s'' := by simpa using hk
            subst hs2
            exact Or.inl (Or.inr ⟨hra, hb⟩)
          | succ k' =>
            exact Or.inr ⟨⟨k', s'', by simpa using hk, hra⟩, hb⟩

end LoopProofs

/-- One step of the per-start traversal as the specification describes it:
with frame `(e, j)` on top, either all auth events of `e` have been visited
(each carries bit `i`), and `e` is marked reachable from start `i` and the
frame popped; or the auth event at the current index already has bit `i`
set, the edge is recorded and the index advances past it; or that auth
event is unseen, the edge is recorded and the event is pushed as a new
frame. -/
inductive DfsStep (store : EventStore) (i : Nat) :
    List Frame × ChainState → List Frame × ChainState → Prop where
  | markPop {eid : EventID} {pindex : Nat} {rest : List Frame} {st : ChainState}
      (hall : ∀ a ∈ authOf store eid, (seenGet st.seen a).testBit i = true) :
      DfsStep store i ((eid, pindex) :: rest, st)
        (rest, { st with seen := orMask st.seen eid (1 <<< i) })
  | advance {eid : EventID} {pindex : Nat} {rest : List Frame} {st : ChainState}
      (hlt : pindex < (authOf store eid).length)
      (hseen : (seenGet st.seen ((authOf store eid).getD pindex "")).testBit i = true) :
      DfsStep store i ((eid, pindex) :: rest, st)
        ((eid, pindex + 1) :: rest,
          { st with edges := insert (eid, (authOf store eid).getD pindex "") st.edges })
  | push {eid : EventID} {pindex : Nat} {rest : List Frame} {st : ChainState}
      (hlt : pindex < (authOf store eid).length)
      (hseen : (seenGet st.seen ((authOf store eid).getD pindex "")).testBit i = false) :
      DfsStep store i ((eid, pindex) :: rest, st)
        (((authOf store eid).getD pindex "", 0) :: (eid, pindex) :: rest,
          { st with edges := insert (eid, (authOf store eid).getD pindex "") st.edges })

/-- A nonzero number has a set bit. -/
lemma exists_testBit_of_ne_zero {x : Nat} (h : x ≠ 0) : ∃ j, x.testBit j = true := by
  by_contra hc
  push_neg at hc
  refine h (Nat.eq_of_testBit_eq fun j => ?_)
  rw [Nat.zero_testBit]
  simpa using hc j

/-- An iteration that records an edge (changes the edge set) never changes
the `seen` bitmask map. -/
lemma edge_record_preserves_seen (store : EventStore) (bm : Nat)
    (stack : List Frame) (st : ChainState) (stack1 : List Frame) (st1 : ChainState)
    (h : dfsIter store bm stack st = .more stack1 st1)
    (hne : st1.edges ≠ st.edges) : st1.seen = st.seen := by
  cases stack with
  | nil => simp [dfsIter] at h
  | cons f0 rest =>
    obtain ⟨eid, pindex⟩ := f0
    rcases hst : store eid with _ | ev
    · rw [dfsIter_missing store bm pindex rest st hst] at h
      cases h
    · by_cases hge : ev.auth_event_ids.length ≤ pindex
      · rw [dfsIter_mark store bm rest st hst hge] at h
        injection h with h1 h2
        rw [← h2] at hne
        exact absurd rfl hne
      · have hlt := Nat.lt_of_not_le hge
        by_cases hmk : seenGet st.seen (ev.auth_event_ids.getD pindex "") &&& bm ≠ 0
        · rw [dfsIter_advance store bm rest st hst hlt hmk] at h
          injection h with h1 h2
          rw [← h2]
        · have hz := not_not.mp hmk
          rw [dfsIter_push store bm rest st hst hlt hz] at h
          injection h with h1 h2
          rw [← h2]

/-- A successful outer loop implies every processed start was fetchable. -/
lemma authChainsLoop_ok_fetchable {store : EventStore} :
    ∀ (starts : List EventID) (i fuel : Nat) (st st' : ChainState),
    authChainsLoop store starts i fuel st = .ok st' →
    ∀ s ∈ starts, (store s).isSome = true := by
  intro starts
  induction starts with
  | nil =>
    intro i fuel st st' _ s hs
    cases hs
  | cons s0 rest ih =>
    intro i fuel st st' h s hs
    rcases hst : store s0 with _ | ev
    · exfalso
      have hiter : dfsIter store (1 <<< i) [(s0, 0)] st = .missing s0 :=
        dfsIter_missing store (1 <<< i) 0 [] st hst
      have hloop : dfsLoop store (1 <<< i) fuel [(s0, 0)] st = .missing s0 :=
        dfsLoop_missing_eq hiter
      simp [authChainsLoop, hloop] at h
    · rcases List.mem_cons.mp hs with rfl | hs'
      · rw [hst]
        rfl
      · rcases hloop : dfsLoop store (1 <<< i) fuel [(s0, 0)] st with st1 | e | _
        · have h' : authChainsLoop store rest (i + 1) fuel st1 = .ok st' := by
            simp [authChainsLoop, hloop] at h
            exact h
          exact ih (i + 1) fuel st1 st' h' s hs'
        · exfalso
          simp [authChainsLoop, hloop] at h
        · exfalso
          simp [authChainsLoop, hloop] at h

/-- Claim C3: the per-start traversal is an iterative DFS on an explicit
stack of (event, next-auth-index) frames; from any state whose top frame has
all auth events before its index already seen, one loop iteration continues
(fetch succeeds, no recursion) and performs exactly the step the
specification describes: mark-and-pop when the auth index is exhausted (at
which point every auth event of the event carries bit `i`), advance past an
auth event that already carries bit `i`, or push the referenced auth event
as a new frame. -/
theorem traversal_step_refines_spec (store : EventStore) (i : Nat)
    {eid : EventID} {pindex : Nat} {rest : List Frame} {st : ChainState}
    (hev : (store eid).isSome = true)
    (hpre : ∀ m, m < pindex →
      (seenGet st.seen ((authOf store eid).getD m "")).testBit i = true) :
    ∃ stack' st',
      dfsIter store (1 <<< i) ((eid, pindex) :: rest) st = .more stack' st' ∧
      DfsStep store i ((eid, pindex) :: rest, st) (stack', st') := by
  rcases hst : store eid with _ | ev
  · rw [hst] at hev
    simp at hev
  · have hauth : authOf store eid = ev.auth_event_ids := authOf_eq hst
    by_cases hge : ev.auth_event_ids.length ≤ pindex
    · refine ⟨rest, _, dfsIter_mark store (1 <<< i) rest st hst hge, ?_⟩
      refine DfsStep.markPop ?_
      intro a ha
      rcases (mem_iff_getD _ a).mp ha with ⟨m, hm, rfl⟩
      have hge' : (authOf store eid).length ≤ pindex := by
        rw [hauth]
        exact hge
      exact hpre m (Nat.lt_of_lt_of_le hm hge')
    · have hlt : pindex < ev.auth_event_ids.length := Nat.lt_of_not_le hge
      have hlt' : pindex < (authOf store eid).length := by
        rw [hauth]
        exact hlt
      by_cases hmk : seenGet st.seen (ev.auth_event_ids.getD pindex "") &&& (1 <<< i) ≠ 0
      · have hstep := dfsIter_advance store (1 <<< i) rest st hst hlt hmk
        rw [← hauth] at hstep
        refine ⟨_, _, hstep, DfsStep.advance hlt' ?_⟩
        have hmk' : seenGet st.seen ((authOf store eid).getD pindex "") &&& (1 <<< i) ≠ 0 := by
          rw [hauth]
          exact hmk
        rw [one_shiftLeft_eq] at hmk'
        exact (and_two_pow_ne_zero_iff _ i).mp hmk'
      · have hz := not_not.mp hmk
        have hstep := dfsIter_push store (1 <<< i) rest st hst hlt hz
        rw [← hauth] at hstep
        refine ⟨_, _, hstep, DfsStep.push hlt' ?_⟩
        have hz' : seenGet st.seen ((authOf store eid).getD pindex "") &&& (1 <<< i) = 0 := by
          rw [hauth]
          exact hz
        rw [one_shiftLeft_eq] at hz'
        by_contra hb
        rw [Bool.not_eq_false] at hb
        exact ((and_two_pow_ne_zero_iff _ i).mpr hb) hz'

/-- Claim C4: a missing event is fatal at the very point it is inspected —
the loop returns the `missing` error for that event id at any fuel, without
touching the rest of the stack — and a traversal that returns successfully
fetched every start event (nothing missing was ever skipped). -/
theorem missing_event_is_fatal :
    (∀ (store : EventStore) (bm : Nat) (eid : EventID) (pindex : Nat)
        (rest : List Frame) (st : ChainState) (fuel : Nat),
      store eid = none →
      dfsLoop store bm fuel ((eid, pindex) :: rest) st = .missing eid) ∧
    (∀ (store : EventStore) (starts : List EventID) (fuel : Nat) (st' : ChainState),
      authChainsTraversal store starts fuel = .ok st' →
      ∀ s ∈ starts, (store s).isSome = true) := by
  constructor
  · intro store bm eid pindex rest st fuel h
    exact dfsLoop_missing_eq (dfsIter_missing store bm pindex rest st h)
  · intro store starts fuel st' h s hs
    exact authChainsLoop_ok_fetchable starts 0 fuel initState st' h s hs

/-- Claim C5: on an acyclic (ranked), auth-closed, fully fetchable universe
the traversal terminates within `totalWork store U = 2·|U| + Σ auth-edges`
loop iterations per start (fuel counts iterations, so total work over all
starts is at most `starts.length · totalWork store U` — linear, not
exponential); moreover a frame is only ever pushed for an event whose bit is
still clear, so once an event carries bit `i` it is never re-pushed for
start `i`. -/
theorem traversal_terminates_linear_fuel
    (store : EventStore) (U : Finset EventID) (rank : EventID → Nat)
    (starts : List EventID)
    (htotal : ∀ e ∈ U, (store e).isSome = true)
    (hclosed : ∀ e ∈ U, ∀ a ∈ authOf store e, a ∈ U)
    (hrank : ∀ e ∈ U, ∀ a ∈ authOf store e, rank a < rank e)
    (hstarts : ∀ s ∈ starts, s ∈ U) :
    (authChainsTraversal store starts (totalWork store U)).isOk = true ∧
    (∀ (bm : Nat) (stack : List Frame) (st : ChainState) (f : Frame)
        (st' : ChainState),
      dfsIter store bm stack st = .more (f :: stack) st' →
      seenGet st.seen f.1 &&& bm = 0 ∧ f.2 = 0) := by
  constructor
  · obtain ⟨st', heq, _⟩ :=
      @authChainsLoop_spec store U rank htotal hclosed hrank starts 0
        (totalWork store U) initState hstarts (Nat.le_refl _)
        (fun e j _ => by
          show (seenGet [] e).testBit j = false
          show (Nat.testBit 0 j) = false
          exact Nat.zero_testBit j)
        List.nodup_nil (fun p hp => absurd hp (List.not_mem_nil p))
    unfold authChainsTraversal
    rw [heq]
    rfl
  · intro bm stack st f st' h
    cases stack with
    | nil => simp [dfsIter] at h
    | cons f0 rest =>
      obtain ⟨eid, pindex⟩ := f0
      rcases hst : store eid with _ | ev
      · rw [dfsIter_missing store bm pindex rest st hst] at h
        cases h
      · by_cases hge : ev.auth_event_ids.length ≤ pindex
        · rw [dfsIter_mark store bm rest st hst hge] at h
          injection h with h1 h2
          exfalso
          have hlen := congrArg List.length h1
          rw [List.length_cons, List.length_cons] at hlen
          omega
        · have hlt := Nat.lt_of_not_le hge
          by_cases hmk : seenGet st.seen (ev.auth_event_ids.getD pindex "") &&& bm ≠ 0
          · rw [dfsIter_advance store bm rest st hst hlt hmk] at h
            injection h with h1 h2
            exfalso
            have hlen := congrArg List.length h1
            rw [List.length_cons, List.length_cons, List.length_cons] at hlen
            omega
          · have hz := not_not.mp hmk
            rw [dfsIter_push store bm rest st hst hlt hz] at h
            injection h with h1 h2
            injection h1 with h3 h4
            constructor
            · rw [← h3]
              exact hz
            · rw [← h3]

/-- The empty `seen` map has every bit of every event clear. -/
lemma seenGet_nil_testBit (e : EventID) (j : Nat) :
    (seenGet [] e).testBit j = false := by
  show (Nat.testBit 0 j) = false
  exact Nat.zero_testBit j

/-- Claim C1: after the traversal over starts `s_0 .. s_{n-1}` completes
(auth-closed, fully fetchable, acyclic universe, enough fuel), bit `i` of
`seen[e]` is set if and only if `e` is reachable from `s_i` via zero or more
auth-event edges; in particular each start event is marked with its own
bit. -/
theorem auth_chain_membership_correct
    (store : EventStore) (U : Finset EventID) (rank : EventID → Nat)
    (starts : List EventID) (fuel : Nat)
    (htotal : ∀ e ∈ U, (store e).isSome = true)
    (hclosed : ∀ e ∈ U, ∀ a ∈ authOf store e, a ∈ U)
    (hrank : ∀ e ∈ U, ∀ a ∈ authOf store e, rank a < rank e)
    (hstarts : ∀ s ∈ starts, s ∈ U)
    (hfuel : totalWork store U ≤ fuel) :
    (authChainsTraversal store starts fuel).isOk = true ∧
    (∀ (e : EventID) (i : Nat) (s : EventID), starts[i]? = some s →
      ((seenGet (authChainsTraversal store starts fuel).seenOf e).testBit i = true ↔
        AuthReach store s e)) ∧
    (∀ (i : Nat) (s : EventID), starts[i]? = some s →
      (seenGet (authChainsTraversal store starts fuel).seenOf s).testBit i = true) := by
  obtain ⟨st', heq, hpres, hbits, hhigh, hedges, hnodup, hvals⟩ :=
    @authChainsLoop_spec store U rank htotal hclosed hrank starts 0 fuel initState
      hstarts hfuel (fun e j _ => seenGet_nil_testBit e j)
      List.nodup_nil (fun p hp => absurd hp (List.not_mem_nil p))
  have htrav : authChainsTraversal store starts fuel = .ok st' := heq
  refine ⟨by rw [htrav]; rfl, ?_, ?_⟩
  · intro e i s hi
    have h1 := hbits e i s hi
    rw [Nat.zero_add] at h1
    rw [htrav]
    exact h1
  · intro i s hi
    have h1 := hbits s i s hi
    rw [Nat.zero_add] at h1
    rw [htrav]
    exact h1.mpr AuthReach.refl

/-- Claim C2: for starts `[A, B]` with B's auth chain a (strict) subset of
A's, the traversal marks every event of B's chain with both bit 0 and bit 1
set, and every event only in A's extended chain with bit 0 set and bit 1
clear. -/
theorem auth_chain_subset_bits
    (store : EventStore) (U : Finset EventID) (rank : EventID → Nat)
    (A B : EventID) (fuel : Nat)
    (htotal : ∀ e ∈ U, (store e).isSome = true)
    (hclosed : ∀ e ∈ U, ∀ a ∈ authOf store e, a ∈ U)
    (hrank : ∀ e ∈ U, ∀ a ∈ authOf store e, rank a < rank e)
    (hA : A ∈ U) (hB : B ∈ U)
    (hfuel : totalWork store U ≤ fuel)
    (hsub : ∀ e, AuthReach store B e → AuthReach store A e)
    (hstrict : ∃ e, AuthReach store A e ∧ ¬ AuthReach store B e) :
    (authChainsTraversal store [A, B] fuel).isOk = true ∧
    (∀ e, AuthReach store B e →
      (seenGet (authChainsTraversal store [A, B] fuel).seenOf e).testBit 0 = true ∧
      (seenGet (authChainsTraversal store [A, B] fuel).seenOf e).testBit 1 = true) ∧
    (∀ e, AuthReach store A e → ¬ AuthReach store B e →
      (seenGet (authChainsTraversal store [A, B] fuel).seenOf e).testBit 0 = true ∧
      (seenGet (authChainsTraversal store [A, B] fuel).seenOf e).testBit 1 = false) := by
  have hstarts : ∀ s ∈ ([A, B] : List EventID), s ∈ U := by
    intro s hs
    rcases List.mem_cons.mp hs with rfl | hs'
    · exact hA
    · rcases List.mem_cons.mp hs' with rfl | h0
      · exact hB
      · cases h0
  obtain ⟨st', heq, hpres, hbits, hhigh, hedges, hnodup, hvals⟩ :=
    @authChainsLoop_spec store U rank htotal hclosed hrank [A, B] 0 fuel initState
      hstarts hfuel (fun e j _ => seenGet_nil_testBit e j)
      List.nodup_nil (fun p hp => absurd hp (List.not_mem_nil p))
  have htrav : authChainsTraversal store [A, B] fuel = .ok st' := heq
  have hbit0 : ∀ e, ((seenGet st'.seen e).testBit 0 = true ↔ AuthReach store A e) := by
    intro e
    have h1 := hbits e 0 A (by simp)
    rwa [Nat.zero_add] at h1
  have hbit1 : ∀ e, ((seenGet st'.seen e).testBit 1 = true ↔ AuthReach store B e) := by
    intro e
    have h1 := hbits e 1 B (by simp)
    rwa [Nat.zero_add] at h1
  refine ⟨by rw [htrav]; rfl, ?_, ?_⟩
  · intro e hBe
    rw [htrav]
    exact ⟨(hbit0 e).mpr (hsub e hBe), (hbit1 e).mpr hBe⟩
  · intro e hAe hBe
    rw [htrav]
    refine ⟨(hbit0 e).mpr hAe, ?_⟩
    by_contra hb
    rw [Bool.not_eq_false] at hb
    exact hBe ((hbit1 e).mp hb)

/-- Claim C6: after a complete traversal the global edge set holds exactly
the pairs (event, direct auth event) inspected during the DFS over all
starts — the auth edges of events reachable from some start — each pair at
most once (it is a set); and recording an edge never changes any seen
bitmask: an iteration whose edge set changed left `seen` untouched. -/
theorem edges_postcondition :
    (∀ (store : EventStore) (U : Finset EventID) (rank : EventID → Nat)
        (starts : List EventID) (fuel : Nat),
      (∀ e ∈ U, (store e).isSome = true) →
      (∀ e ∈ U, ∀ a ∈ authOf store e, a ∈ U) →
      (∀ e ∈ U, ∀ a ∈ authOf store e, rank a < rank e) →
      (∀ s ∈ starts, s ∈ U) →
      totalWork store U ≤ fuel →
      (authChainsTraversal store starts fuel).isOk = true ∧
      (∀ a b : EventID,
        (a, b) ∈ (authChainsTraversal store starts fuel).edgesOf ↔
        ((∃ (k : Nat) (s : EventID), starts[k]? = some s ∧ AuthReach store s a) ∧
          b ∈ authOf store a))) ∧
    (∀ (store : EventStore) (bm : Nat) (stack stack1 : List Frame)
        (st st1 : ChainState),
      dfsIter store bm stack st = .more stack1 st1 →
      st1.edges ≠ st.edges → st1.seen = st.seen) := by
  constructor
  · intro store U rank starts fuel htotal hclosed hrank hstarts hfuel
    obtain ⟨st', heq, hpres, hbits, hhigh, hedges, hnodup, hvals⟩ :=
      @authChainsLoop_spec store U rank htotal hclosed hrank starts 0 fuel initState
        hstarts hfuel (fun e j _ => seenGet_nil_testBit e j)
        List.nodup_nil (fun p hp => absurd hp (List.not_mem_nil p))
    have htrav : authChainsTraversal store starts fuel = .ok st' := heq
    refine ⟨by rw [htrav]; rfl, ?_⟩
    intro a b
    rw [htrav]
    show (a, b) ∈ st'.edges ↔ _
    have h1 := hedges a b
    constructor
    · intro hab
      rcases h1.mp hab with h | h
      · exact absurd h (Finset.not_mem_empty _)
      · exact h
    · intro hab
      exact h1.mpr (Or.inr hab)
  · exact fun store bm stack stack1 st st1 h hne =>
      edge_record_preserves_seen store bm stack st stack1 st1 h hne

/-- The colour list has four entries: indexing fails exactly for bitmasks
above three. -/
lemma colors_getElem?_eq_none_iff (bm : Nat) : colors[bm]? = none ↔ 4 ≤ bm := by
  rw [List.getElem?_eq_none_iff]
  show colors.length ≤ bm ↔ 4 ≤ bm
  rw [show colors.length = 4 from rfl]

/-- The node-rendering loop succeeds exactly when every recorded bitmask is
at most three (all events fetchable). -/
lemma renderNodes_ok_iff (store : EventStore) :
    ∀ items : List (EventID × Nat),
    (∀ p ∈ items, (store p.1).isSome = true) →
    ((∃ ns, renderNodes store items = .ok ns) ↔ ∀ p ∈ items, p.2 ≤ 3) := by
  intro items
  induction items with
  | nil =>
    intro _
    constructor
    · intro _ p hp
      cases hp
    · intro _
      exact ⟨[], rfl⟩
  | cons q rest ih =>
    intro hfetch
    obtain ⟨eid, bm⟩ := q
    rcases hst : store eid with _ | ev
    · have h1 := hfetch (eid, bm) (List.mem_cons_self _ _)
      rw [hst] at h1
      simp at h1
    · have ihr := ih (fun p hp => hfetch p (List.mem_cons_of_mem _ hp))
      constructor
      · rintro ⟨ns, hns⟩
        by_cases hbm : 4 ≤ bm
        · exfalso
          have hcol : colors[bm]? = none := (colors_getElem?_eq_none_iff bm).mpr hbm
          simp [renderNodes, hst, hcol] at hns
        · have hbm' : bm ≤ 3 := by omega
          rcases hcol : colors[bm]? with _ | c
          · rw [colors_getElem?_eq_none_iff] at hcol
            omega
          · intro p hp
            rcases List.mem_cons.mp hp with rfl | hp'
            · exact hbm'
            · refine (ihr.mp ?_) p hp'
              rcases hrest : renderNodes store rest with ns' | e' | ix
              · exact ⟨ns', rfl⟩
              · simp [renderNodes, hst, hcol, hrest] at hns
              · simp [renderNodes, hst, hcol, hrest] at hns
      · intro hall
        have hbm' : bm ≤ 3 := hall (eid, bm) (List.mem_cons_self _ _)
        rcases hcol : colors[bm]? with _ | c
        · rw [colors_getElem?_eq_none_iff] at hcol
          omega
        · obtain ⟨ns, hns⟩ := ihr.mpr (fun p hp => hall p (List.mem_cons_of_mem _ hp))
          exact ⟨(eid, c) :: ns, by simp [renderNodes, hst, hcol, hns]⟩

/-- The node-rendering loop raises an out-of-range index when some recorded
bitmask is at least four (all events fetchable). -/
lemma renderNodes_fail (store : EventStore) :
    ∀ items : List (EventID × Nat),
    (∀ p ∈ items, (store p.1).isSome = true) →
    ∀ p ∈ items, 4 ≤ p.2 →
    ∃ b, renderNodes store items = .indexErr b ∧ 4 ≤ b := by
  intro items
  induction items with
  | nil =>
    intro _ p hp
    cases hp
  | cons q rest ih =>
    intro hfetch p hp hbig
    obtain ⟨eid, bm⟩ := q
    rcases hst : store eid with _ | ev
    · have h1 := hfetch (eid, bm) (List.mem_cons_self _ _)
      rw [hst] at h1
      simp at h1
    · by_cases hbm : 4 ≤ bm
      · refine ⟨bm, ?_, hbm⟩
        have hcol : colors[bm]? = none := (colors_getElem?_eq_none_iff bm).mpr hbm
        simp [renderNodes, hst, hcol]
      · rcases List.mem_cons.mp hp with rfl | hp'
        · exact absurd hbig hbm
        · obtain ⟨b, hb, hble⟩ :=
            ih (fun r hr => hfetch r (List.mem_cons_of_mem _ hr)) p hp' hbig
          rcases hcol : colors[bm]? with _ | c
          · rw [colors_getElem?_eq_none_iff] at hcol
            omega
          · exact ⟨b, by simp [renderNodes, hst, hcol, hb], hble⟩

/-- Claim C9 (implicit): the visualization step indexes the fixed 4-element
colour list by the full membership bitmask, so `dump_auth_chains` completes
without an out-of-range index exactly when every recorded bitmask is at most
3 (last conjunct, for arbitrary item lists); with at most two starts this
always holds and the pipeline succeeds, while with three or more starts the
third start itself lies in its own auth chain, its bitmask reaches at least
`2^2 = 4`, and the colour lookup fails with an out-of-range index. -/
theorem colour_index_out_of_range
    (store : EventStore) (U : Finset EventID) (rank : EventID → Nat)
    (starts : List EventID) (fuel : Nat)
    (htotal : ∀ e ∈ U, (store e).isSome = true)
    (hclosed : ∀ e ∈ U, ∀ a ∈ authOf store e, a ∈ U)
    (hrank : ∀ e ∈ U, ∀ a ∈ authOf store e, rank a < rank e)
    (hstarts : ∀ s ∈ starts, s ∈ U)
    (hfuel : totalWork store U ≤ fuel) :
    ((starts.length ≤ 2 →
      ∃ st ns, dump_auth_chains store starts fuel = .ok st ns) ∧
     (3 ≤ starts.length →
      ∃ b, dump_auth_chains store starts fuel = .indexErr b ∧ 4 ≤ b)) ∧
    (∀ items : List (EventID × Nat),
      (∀ p ∈ items, (store p.1).isSome = true) →
      ((∃ ns, renderNodes store items = .ok ns) ↔ ∀ p ∈ items, p.2 ≤ 3)) := by
  obtain ⟨st', heq, hpres, hbits, hhigh, hedges, hnodup, hvals⟩ :=
    @authChainsLoop_spec store U rank htotal hclosed hrank starts 0 fuel initState
      hstarts hfuel (fun e j _ => seenGet_nil_testBit e j)
      List.nodup_nil (fun p hp => absurd hp (List.not_mem_nil p))
  have htrav : authChainsTraversal store starts fuel = .ok st' := heq
  have hval_eq : ∀ p ∈ st'.seen, p.2 = seenGet st'.seen p.1 := by
    intro p hp
    exact (seenGet_of_mem_nodup st'.seen hnodup hp).symm
  have hfetch_items : ∀ p ∈ st'.seen, (store p.1).isSome = true := by
    intro p hp
    have hne := hvals p hp
    rw [hval_eq p hp] at hne
    obtain ⟨j, hj⟩ := exists_testBit_of_ne_zero hne
    have hjlt : j < starts.length := by
      by_contra hge
      rw [hhigh p.1 j (by omega)] at hj
      cases hj
    have hsome : starts[j]? = some starts[j] := List.getElem?_eq_getElem hjlt
    have hreach : AuthReach store starts[j] p.1 := by
      have h1 := hbits p.1 j starts[j] hsome
      rw [Nat.zero_add] at h1
      exact h1.mp hj
    have hsU : starts[j] ∈ U := hstarts _ (List.getElem_mem hjlt)
    exact htotal p.1 (authReach_mem hclosed hsU hreach)
  refine ⟨⟨?_, ?_⟩, renderNodes_ok_iff store⟩
  · intro hlen
    have hsmall : ∀ p ∈ st'.seen, p.2 ≤ 3 := by
      intro p hp
      rw [hval_eq p hp]
      have hlt4 : seenGet st'.seen p.1 < 2 ^ 2 := by
        apply lt_two_pow_of_high_bits
        intro j hj
        exact hhigh p.1 j (by omega)
      omega
    obtain ⟨ns, hns⟩ := (renderNodes_ok_iff store st'.seen hfetch_items).mpr hsmall
    exact ⟨st', ns, by simp [dump_auth_chains, htrav, hns]⟩
  · intro hlen
    have h2lt : 2 < starts.length := by omega
    have hsome : starts[2]? = some starts[2] := List.getElem?_eq_getElem h2lt
    have hbit2 : (seenGet st'.seen starts[2]).testBit 2 = true := by
      have h1 := hbits starts[2] 2 starts[2] hsome
      rw [Nat.zero_add] at h1
      exact h1.mpr AuthReach.refl
    have hge4 : 4 ≤ seenGet st'.seen starts[2] := two_pow_le_of_testBit hbit2
    have hne0 : seenGet st'.seen starts[2] ≠ 0 := by omega
    have hkey := mem_keys_of_seenGet_ne_zero st'.seen starts[2] hne0
    rcases List.mem_map.mp hkey with ⟨p, hp, hpk⟩
    have hpbig : 4 ≤ p.2 := by
      rw [hval_eq p hp, hpk]
      exact hge4
    obtain ⟨b, hb, hble⟩ := renderNodes_fail store st'.seen hfetch_items p hp hpbig
    exact ⟨b, by simp [dump_auth_chains, htrav, hb], hble⟩

/-- From an event with no auth events, only the event itself is reachable. -/
lemma authReach_nil_auth {store : EventStore} {s e : EventID}
    (hs : authOf store s = []) (h : AuthReach store s e) : e = s := by
  induction h with
  | refl => rfl
  | step h1 hst ha ih =>
    rw [ih] at hst
    have h3 : authOf store s = _ := authOf_eq hst
    rw [hs] at h3
    rw [← h3] at ha
    cases ha

/-- A three-event store used in the witnesses: `"A"` cites `"B"` as its only
auth event, `"B"` and `"C"` cite none, all other ids are missing. -/
def storeW : EventStore := fun e =>
  if e = "A" then some ⟨["B"]⟩
  else if e = "B" then some ⟨[]⟩
  else if e = "C" then some ⟨[]⟩
  else none

/-- A rank function witnessing acyclicity of `storeW`. -/
def rankW : EventID → Nat := fun e => if e = "A" then 1 else 0

/-- The two-event universe of the witnesses. -/
def UW2 : Finset EventID := {"A", "B"}

/-- The three-event universe of the witnesses. -/
def UW3 : Finset EventID := {"A", "B", "C"}

/-- In the witness store, `"B"` is in the auth chain of `"A"`. -/
lemma authReach_storeW_AB : AuthReach storeW "A" "B" := by
  have hst : storeW "A" = some ⟨["B"]⟩ := by decide
  exact AuthReach.step AuthReach.refl hst (List.mem_cons_self _ _)

/-- In the witness store, only `"B"` is reachable from `"B"`. -/
lemma authReach_storeW_B {e : EventID} (h : AuthReach storeW "B" e) : e = "B" :=
  authReach_nil_auth (by decide) h

/-- Witness for C1: the concrete two-start run on the witness store satisfies
every hypothesis, completes, and marks `"B"` with bit 0 (it is in the auth
chain of start 0, `"A"`). -/
theorem auth_chain_membership_correct_witness :
    (∀ e ∈ UW2, (storeW e).isSome = true) ∧
    (∀ e ∈ UW2, ∀ a ∈ authOf storeW e, a ∈ UW2) ∧
    (∀ e ∈ UW2, ∀ a ∈ authOf storeW e, rankW a < rankW e) ∧
    (∀ s ∈ (["A", "B"] : List EventID), s ∈ UW2) ∧
    totalWork storeW UW2 ≤ 10 ∧
    (authChainsTraversal storeW ["A", "B"] 10).isOk = true ∧
    (seenGet (authChainsTraversal storeW ["A", "B"] 10).seenOf "B").testBit 0 = true := by
  have h1 : ∀ e ∈ UW2, (storeW e).isSome = true := by decide
  have h2 : ∀ e ∈ UW2, ∀ a ∈ authOf storeW e, a ∈ UW2 := by decide
  have h3 : ∀ e ∈ UW2, ∀ a ∈ authOf storeW e, rankW a < rankW e := by decide
  have h4 : ∀ s ∈ (["A", "B"] : List EventID), s ∈ UW2 := by decide
  have h5 : totalWork storeW UW2 ≤ 10 := by decide
  have hmain := auth_chain_membership_correct storeW UW2 rankW ["A", "B"] 10
    h1 h2 h3 h4 h5
  exact ⟨h1, h2, h3, h4, h5, hmain.1,
    (hmain.2.1 "B" 0 "A" (by decide)).mpr authReach_storeW_AB⟩

/-- Witness for C2: on the witness store, `"B"`'s auth chain is a strict
subset of `"A"`'s; after the run `"B"` carries both bits and `"A"` carries
only bit 0. -/
theorem auth_chain_subset_bits_witness :
    (∀ e ∈ UW2, (storeW e).isSome = true) ∧
    ("A" ∈ UW2 ∧ "B" ∈ UW2) ∧
    totalWork storeW UW2 ≤ 10 ∧
    (∀ e, AuthReach storeW "B" e → AuthReach storeW "A" e) ∧
    (∃ e, AuthReach storeW "A" e ∧ ¬ AuthReach storeW "B" e) ∧
    ((authChainsTraversal storeW ["A", "B"] 10).isOk = true ∧
     (seenGet (authChainsTraversal storeW ["A", "B"] 10).seenOf "B").testBit 0 = true ∧
     (seenGet (authChainsTraversal storeW ["A", "B"] 10).seenOf "B").testBit 1 = true ∧
     (seenGet (authChainsTraversal storeW ["A", "B"] 10).seenOf "A").testBit 1 = false) := by
  have h1 : ∀ e ∈ UW2, (storeW e).isSome = true := by decide
  have h2 : ∀ e ∈ UW2, ∀ a ∈ authOf storeW e, a ∈ UW2 := by decide
  have h3 : ∀ e ∈ UW2, ∀ a ∈ authOf storeW e, rankW a < rankW e := by decide
  have hA : "A" ∈ UW2 := by decide
  have hB : "B" ∈ UW2 := by decide
  have h5 : totalWork storeW UW2 ≤ 10 := by decide
  have hsub : ∀ e, AuthReach storeW "B" e → AuthReach storeW "A" e := by
    intro e h
    rw [authReach_storeW_B h]
    exact authReach_storeW_AB
  have hstrict : ∃ e, AuthReach storeW "A" e ∧ ¬ AuthReach storeW "B" e := by
    refine ⟨"A", AuthReach.refl, fun h => ?_⟩
    have h' := authReach_storeW_B h
    exact absurd h' (by decide)
  have hmain := auth_chain_subset_bits storeW UW2 rankW "A" "B" 10
    h1 h2 h3 hA hB h5 hsub hstrict
  have hBbits := hmain.2.1 "B" AuthReach.refl
  have hAbits := hmain.2.2 "A" AuthReach.refl
    (fun h => absurd (authReach_storeW_B h) (by decide))
  exact ⟨h1, ⟨hA, hB⟩, h5, hsub, hstrict,
    hmain.1, hBbits.1, hBbits.2, hAbits.2⟩

/-- Witness for C3: one iteration on the frame `("B", 0)` of the witness
store continues and performs a specification step. -/
theorem traversal_step_refines_spec_witness :
    (storeW "B").isSome = true ∧
    (∃ stack' st',
      dfsIter storeW (1 <<< 0) [("B", 0)] initState = .more stack' st' ∧
      DfsStep storeW 0 ([("B", 0)], initState) (stack', st')) := by
  refine ⟨by decide, ?_⟩
  exact traversal_step_refines_spec storeW 0 (by decide)
    (fun m hm => absurd hm (Nat.not_lt_zero m))

/-- Witness for C4: the id `"X"` is missing from the witness store and the
loop inspecting it aborts with exactly that event id. -/
theorem missing_event_is_fatal_witness :
    storeW "X" = none ∧
    dfsLoop storeW 1 5 [("X", 0)] initState = .missing "X" := by
  have h : storeW "X" = none := by decide
  exact ⟨h, missing_event_is_fatal.1 storeW 1 "X" 0 [] initState 5 h⟩

/-- Witness for C5: the two-start run on the witness store completes within
`totalWork` fuel, and a concrete push step pushes only an unmarked event
with auth index zero. -/
theorem traversal_terminates_linear_fuel_witness :
    (∀ e ∈ UW2, (storeW e).isSome = true) ∧
    (∀ e ∈ UW2, ∀ a ∈ authOf storeW e, a ∈ UW2) ∧
    (∀ e ∈ UW2, ∀ a ∈ authOf storeW e, rankW a < rankW e) ∧
    (∀ s ∈ (["A", "B"] : List EventID), s ∈ UW2) ∧
    (authChainsTraversal storeW ["A", "B"] (totalWork storeW UW2)).isOk = true ∧
    (dfsIter storeW 1 [("A", 0)] initState =
       .more (("B", 0) :: [("A", 0)]) ⟨[], {("A", "B")}⟩ ∧
     seenGet initState.seen "B" &&& 1 = 0) := by
  have h1 : ∀ e ∈ UW2, (storeW e).isSome = true := by decide
  have h2 : ∀ e ∈ UW2, ∀ a ∈ authOf storeW e, a ∈ UW2 := by decide
  have h3 : ∀ e ∈ UW2, ∀ a ∈ authOf storeW e, rankW a < rankW e := by decide
  have h4 : ∀ s ∈ (["A", "B"] : List EventID), s ∈ UW2 := by decide
  have hmain := traversal_terminates_linear_fuel storeW UW2 rankW ["A", "B"]
    h1 h2 h3 h4
  have hiter : dfsIter storeW 1 [("A", 0)] initState =
      .more (("B", 0) :: [("A", 0)]) ⟨[], {("A", "B")}⟩ := by decide
  have hp := hmain.2 1 [("A", 0)] initState ("B", 0) ⟨[], {("A", "B")}⟩ hiter
  exact ⟨h1, h2, h3, h4, hmain.1, hiter, hp.1⟩

/-- Witness for C6: on the witness store the recorded edge set of the
two-start run contains the single auth edge `("A", "B")`, and the concrete
edge-recording push step leaves `seen` unchanged. -/
theorem edges_postcondition_witness :
    (∀ e ∈ UW2, (storeW e).isSome = true) ∧
    (∀ e ∈ UW2, ∀ a ∈ authOf storeW e, a ∈ UW2) ∧
    (∀ e ∈ UW2, ∀ a ∈ authOf storeW e, rankW a < rankW e) ∧
    (∀ s ∈ (["A", "B"] : List EventID), s ∈ UW2) ∧
    totalWork storeW UW2 ≤ 10 ∧
    ("A", "B") ∈ (authChainsTraversal storeW ["A", "B"] 10).edgesOf ∧
    (⟨[], {("A", "B")}⟩ : ChainState).seen = initState.seen := by
  have h1 : ∀ e ∈ UW2, (storeW e).isSome = true := by decide
  have h2 : ∀ e ∈ UW2, ∀ a ∈ authOf storeW e, a ∈ UW2 := by decide
  have h3 : ∀ e ∈ UW2, ∀ a ∈ authOf storeW e, rankW a < rankW e := by decide
  have h4 : ∀ s ∈ (["A", "B"] : List EventID), s ∈ UW2 := by decide
  have h5 : totalWork storeW UW2 ≤ 10 := by decide
  have hmain := edges_postcondition.1 storeW UW2 rankW ["A", "B"] 10
    h1 h2 h3 h4 h5
  have hmem : ("A", "B") ∈ (authChainsTraversal storeW ["A", "B"] 10).edgesOf :=
    (hmain.2 "A" "B").mpr ⟨⟨0, "A", by decide, AuthReach.refl⟩, by decide⟩
  have hseen := edges_postcondition.2 storeW 1 [("A", 0)]
    (("B", 0) :: [("A", 0)]) initState ⟨[], {("A", "B")}⟩ (by decide) (by decide)
  exact ⟨h1, h2, h3, h4, h5, hmem, hseen⟩

/-- Witness for C9: the three-start run on the witness store fails with an
out-of-range colour index of at least four. -/
theorem colour_index_out_of_range_witness :
    (∀ e ∈ UW3, (storeW e).isSome = true) ∧
    (∀ e ∈ UW3, ∀ a ∈ authOf storeW e, a ∈ UW3) ∧
    (∀ e ∈ UW3, ∀ a ∈ authOf storeW e, rankW a < rankW e) ∧
    (∀ s ∈ (["A", "B", "C"] : List EventID), s ∈ UW3) ∧
    totalWork storeW UW3 ≤ 10 ∧
    (3 ≤ (["A", "B", "C"] : List EventID).length ∧
     ∃ b, dump_auth_chains storeW ["A", "B", "C"] 10 = .indexErr b ∧ 4 ≤ b) := by
  have h1 : ∀ e ∈ UW3, (storeW e).isSome = true := by decide
  have h2 : ∀ e ∈ UW3, ∀ a ∈ authOf storeW e, a ∈ UW3 := by decide
  have h3 : ∀ e ∈ UW3, ∀ a ∈ authOf storeW e, rankW a < rankW e := by decide
  have h4 : ∀ s ∈ (["A", "B", "C"] : List EventID), s ∈ UW3 := by decide
  have h5 : totalWork storeW UW3 ≤ 10 := by decide
  have hmain := colour_index_out_of_range storeW UW3 rankW ["A", "B", "C"] 10
    h1 h2 h3 h4 h5
  exact ⟨h1, h2, h3, h4, h5, by decide, hmain.1.2 (by decide)⟩

end DebugStateRes

namespace PartialStateStream

/-- Room identifiers are opaque strings (`RoomID` in the source). -/
abbrev RoomID := String

/-- The row type of the un-partial-stated-room stream: the attrs class
`UnPartialStatedRoomStreamRow` with its single field `room_id`. -/
structure UnPartialStatedRoomStreamRow where
  room_id : RoomID
deriving DecidableEq

/-- The fixed stream name `NAME = "un_partial_stated_room"`. -/
def UnPartialStatedRoomStream.NAME : String := "un_partial_stated_room"

/-- The declared `ROW_TYPE` of the stream. -/
abbrev UnPartialStatedRoomStream.ROW_TYPE := UnPartialStatedRoomStreamRow

/-- Modelled from the spec: `current_token_without_instance` and the store's
token getter (`synapse/replication/tcp/streams/_base.py` and the id
generator behind `get_un_partial_stated_rooms_token`) are not under `src/`;
the spec documents the exposed current position for multi-writer deployments
as the minimum across the positions the instances have acknowledged.  Tokens
are per-instance non-negative integer positions, modelled as `Nat`. -/
def mergedCurrentToken (acked : List Nat) : Nat :=
  match acked with
  | [] => 0
  | p :: ps => ps.foldl Nat.min p

/-- Errors raised by attribute assignment on attrs instances. -/
inductive AttrSetError where
  | frozenInstanceError
  | attributeError
deriving DecidableEq

/-- The attrs class options a class declaration chooses, together with its
declared field names. -/
structure AttrsClassSpec where
  slots : Bool
  frozen : Bool
  fields : List String
deriving DecidableEq

/-- The options the source declares on the row class:
`@attr.s(slots=True, frozen=True, auto_attribs=True)` with the single
auto-attrib field `room_id`. -/
def rowClassSpec : AttrsClassSpec :=
  { slots := true, frozen := true, fields := ["room_id"] }

/-- Replace the value of `name` in an attribute list, appending when absent. -/
def upsertAttr (attrs : List (String × RoomID)) (name : String) (v : RoomID) :
    List (String × RoomID) :=
  if attrs.any (fun p => p.1 == name) then
    attrs.map (fun p => if p.1 == name then (p.1, v) else p)
  else attrs ++ [(name, v)]

/-- Modelled attrs runtime semantics of `setattr` on an instance of a class
declared with the given options: a frozen class raises
`FrozenInstanceError` on any attribute assignment; a slotted class raises
`AttributeError` for attributes outside the declared fields; otherwise the
assignment succeeds. -/
def attrsSetattr (cls : AttrsClassSpec) (attrs : List (String × RoomID))
    (name : String) (v : RoomID) : Except AttrSetError (List (String × RoomID)) :=
  if cls.frozen then .error .frozenInstanceError
  else if name ∈ cls.fields ∨ cls.slots = false then .ok (upsertAttr attrs name v)
  else .error .attributeError

end PartialStateStream

namespace PartialStateStream

/-- Claim C7: every row of the un-partial-stated replication stream carries
exactly one field, the room identifier (so rows are in bijection with room
identifiers), and the stream's name is the fixed identifier
`"un_partial_stated_room"`. -/
theorem stream_row_and_name_contract :
    UnPartialStatedRoomStream.NAME = "un_partial_stated_room" ∧
    (∀ r₁ r₂ : UnPartialStatedRoomStreamRow, r₁.room_id = r₂.room_id → r₁ = r₂) ∧
    (∀ room : RoomID, (UnPartialStatedRoomStreamRow.mk room).room_id = room) := by
  refine ⟨rfl, ?_, fun _ => rfl⟩
  intro r₁ r₂ h
  cases r₁
  cases r₂
  simpa using h

/-- Witness for C7 at a concrete row. -/
theorem stream_row_and_name_contract_witness :
    UnPartialStatedRoomStreamRow.mk "!room:example.org" = ⟨"!room:example.org"⟩ :=
  stream_row_and_name_contract.2.1 ⟨"!room:example.org"⟩ ⟨"!room:example.org"⟩ rfl

/-- The fold of `Nat.min` over a list is a lower bound for the seed and every
element. -/
theorem foldl_min_le (ps : List Nat) : ∀ p : Nat, ps.foldl Nat.min p ≤ p ∧
    ∀ q ∈ ps, ps.foldl Nat.min p ≤ q := by
  induction ps with
  | nil => exact fun p => ⟨Nat.le_refl p, by simp⟩
  | cons q ps ih =>
    intro p
    refine ⟨Nat.le_trans (ih (Nat.min p q)).1 (Nat.min_le_left p q), ?_⟩
    intro r hr
    rcases List.mem_cons.mp hr with h | h
    · subst h
      exact Nat.le_trans (ih (Nat.min p r)).1 (Nat.min_le_right p r)
    · exact (ih (Nat.min p q)).2 r h

/-- Claim C8: the stream token is a per-instance non-negative integer
position (`Nat`), and the merged current position for multi-writer
deployments is a lower bound for every instance's acknowledged position, so
any row not yet acknowledged by its writer instance lies strictly after the
merged token — a consumer resuming from it cannot skip that row. -/
theorem multi_writer_token_merge (positions : List Nat) (w : Nat) (p : Nat)
    (hw : positions.get? w = some p) :
    mergedCurrentToken positions ≤ p ∧
    ∀ rowPos : Nat, p < rowPos → mergedCurrentToken positions < rowPos := by
  have hmem : p ∈ positions := List.get?_mem hw
  have hle : mergedCurrentToken positions ≤ p := by
    cases positions with
    | nil => simp at hmem
    | cons q ps =>
      rcases List.mem_cons.mp hmem with h | h
      · subst h
        exact (foldl_min_le ps p).1
      · exact (foldl_min_le ps q).2 p h
  exact ⟨hle, fun rowPos hlt => Nat.lt_of_le_of_lt hle hlt⟩

/-- Witness for C8: three writer instances with acknowledged positions
7, 3, 9; the merged token is 3, and a row at position 4 not yet acknowledged
by instance 1 is strictly after the merged token. -/
theorem multi_writer_token_merge_witness :
    [7, 3, 9].get? 1 = some 3 ∧
    mergedCurrentToken [7, 3, 9] ≤ 3 ∧ mergedCurrentToken [7, 3, 9] < 4 := by
  refine ⟨by decide, ?_⟩
  have h := multi_writer_token_merge [7, 3, 9] 1 3 (by decide)
  exact ⟨h.1, h.2 4 (by decide)⟩

/-- Claim C10: the row class is declared frozen and slotted with the single
field `room_id`, and under the attrs runtime semantics any attribute
assignment on such an instance — reassigning `room_id` or adding a new
attribute — raises `FrozenInstanceError`, leaving the attribute list
unchanged: rows are immutable values. -/
theorem row_is_immutable :
    rowClassSpec.frozen = true ∧ rowClassSpec.slots = true ∧
    rowClassSpec.fields = ["room_id"] ∧
    ∀ (attrs : List (String × RoomID)) (name : String) (v : RoomID),
      attrsSetattr rowClassSpec attrs name v = .error .frozenInstanceError := by
  refine ⟨rfl, rfl, rfl, ?_⟩
  intro attrs name v
  rfl

end PartialStateStream
